import Mathlib

/-!
# Verification of the bevy_bones3 voxel storage and streaming core

This file gives a shallow embedding, in Lean 4, of the core data structures and
operations of the `bevy_bones3` voxel engine: integer coordinate vectors and
region math (`src/math/region.rs`, `src/math/iterators.rs`), the
chunk/sector/world storage hierarchy (`src/storage/world.rs`,
`src/query/sector.rs`), the chunk anchor priority function
(`crates/bones3_worldgen/src/anchor.rs`) and the asynchronous generation queue
(`crates/bones3_worldgen/src/queue.rs`, `src/world_gen/queue.rs`), together
with proofs and refutations of specified properties of those operations.

Machine integers (`i32`) are modelled as `ℤ`: arithmetic right shift `>> n` is
floor division `Int.ediv` by `2^n`, bitwise `& 15` on two's complement is
`Int.emod` by `16`, and `<< n` is multiplication by `2^n`.  The `f32` values
produced by the anchor priority function are modelled exactly at the points
the claims are about, as explained at the corresponding definitions.
-/

set_option maxHeartbeats 1000000
set_option maxRecDepth 100000

namespace Bones3

/-! ## Integer coordinate vectors (`IVec3` from `glam`, used throughout) -/

/-- A 3-component integer vector, the `IVec3` type of the source.  Components
are mathematical integers; the source uses `i32` and none of the verified
operations approach its range. -/
structure IVec3 where
  x : ℤ
  y : ℤ
  z : ℤ
deriving DecidableEq, Repr

namespace IVec3

/-- Componentwise addition (`IVec3 + IVec3`). -/
instance : Add IVec3 := ⟨fun a b => ⟨a.x + b.x, a.y + b.y, a.z + b.z⟩⟩

/-- Componentwise subtraction (`IVec3 - IVec3`). -/
instance : Sub IVec3 := ⟨fun a b => ⟨a.x - b.x, a.y - b.y, a.z - b.z⟩⟩

/-- The zero vector `IVec3::ZERO`. -/
instance : Zero IVec3 := ⟨⟨0, 0, 0⟩⟩

/-- Broadcast of an integer to all three lanes (`IVec3::splat`, and the
implicit broadcast in expressions such as `v >> 4` or `v & 15`). -/
def splat (n : ℤ) : IVec3 := ⟨n, n, n⟩

/-- Componentwise arithmetic shift right by `n` bits (`v >> n` on `i32`
lanes), i.e. componentwise floor division by `2^n`. -/
def asr (v : IVec3) (n : ℕ) : IVec3 :=
  ⟨v.x / 2 ^ n, v.y / 2 ^ n, v.z / 2 ^ n⟩

/-- Componentwise bitwise and with the low mask `2^n - 1` (`v & 15` for
`n = 4`), i.e. componentwise nonnegative remainder modulo `2^n`. -/
def maskLow (v : IVec3) (n : ℕ) : IVec3 :=
  ⟨v.x % 2 ^ n, v.y % 2 ^ n, v.z % 2 ^ n⟩

/-- Componentwise shift left by `n` bits (`v << n`), i.e. multiplication by
`2^n`. -/
def shl (v : IVec3) (n : ℕ) : IVec3 :=
  ⟨v.x * 2 ^ n, v.y * 2 ^ n, v.z * 2 ^ n⟩

@[simp] theorem mk_x (a b c : ℤ) : (IVec3.mk a b c).x = a := rfl
@[simp] theorem mk_y (a b c : ℤ) : (IVec3.mk a b c).y = b := rfl
@[simp] theorem mk_z (a b c : ℤ) : (IVec3.mk a b c).z = c := rfl
@[simp] theorem add_x (a b : IVec3) : (a + b).x = a.x + b.x := rfl
@[simp] theorem add_y (a b : IVec3) : (a + b).y = a.y + b.y := rfl
@[simp] theorem add_z (a b : IVec3) : (a + b).z = a.z + b.z := rfl
@[simp] theorem sub_x (a b : IVec3) : (a - b).x = a.x - b.x := rfl
@[simp] theorem sub_y (a b : IVec3) : (a - b).y = a.y - b.y := rfl
@[simp] theorem sub_z (a b : IVec3) : (a - b).z = a.z - b.z := rfl

/-- Componentwise minimum (`IVec3::min`). -/
def minv (a b : IVec3) : IVec3 := ⟨min a.x b.x, min a.y b.y, min a.z b.z⟩

/-- Componentwise maximum (`IVec3::max`). -/
def maxv (a b : IVec3) : IVec3 := ⟨max a.x b.x, max a.y b.y, max a.z b.z⟩

/-- The componentwise order `a ≤ b` on integer vectors (used to state
region membership). -/
def levec (a b : IVec3) : Prop := a.x ≤ b.x ∧ a.y ≤ b.y ∧ a.z ≤ b.z

instance : DecidablePred (fun p : IVec3 × IVec3 => levec p.1 p.2) :=
  fun _ => by unfold levec; infer_instance

instance (a b : IVec3) : Decidable (levec a b) := by unfold levec; infer_instance

/-- Squared Euclidean norm of an integer vector, an exact integer. -/
def normSq (v : IVec3) : ℤ := v.x * v.x + v.y * v.y + v.z * v.z

theorem normSq_nonneg (v : IVec3) : 0 ≤ v.normSq := by
  have hx := mul_self_nonneg v.x
  have hy := mul_self_nonneg v.y
  have hz := mul_self_nonneg v.z
  unfold normSq; omega

theorem normSq_eq_zero_iff (v : IVec3) : v.normSq = 0 ↔ v = ⟨0, 0, 0⟩ := by
  constructor
  · intro h
    have hx := mul_self_nonneg v.x
    have hy := mul_self_nonneg v.y
    have hz := mul_self_nonneg v.z
    have hx0 : v.x * v.x = 0 := by unfold normSq at h; omega
    have hy0 : v.y * v.y = 0 := by unfold normSq at h; omega
    have hz0 : v.z * v.z = 0 := by unfold normSq at h; omega
    have : v.x = 0 := by exact mul_self_eq_zero.mp hx0
    have : v.y = 0 := by exact mul_self_eq_zero.mp hy0
    have : v.z = 0 := by exact mul_self_eq_zero.mp hz0
    cases v; simp_all
  · intro h; subst h; rfl

end IVec3

/-- The exact squared Euclidean distance between two integer vectors.  The
source computes `target.as_vec3().distance(pos.as_vec3())`, the `f32` square
root of this quantity; comparisons of distances against each other and against
integer radii are decided exactly by the squared values, since the real square
root is strictly monotone on nonnegative reals. -/
def distSq (a b : IVec3) : ℤ := (b - a).normSq

theorem distSq_nonneg (a b : IVec3) : 0 ≤ distSq a b := IVec3.normSq_nonneg _

theorem distSq_self (a : IVec3) : distSq a a = 0 := by
  simp [distSq, IVec3.normSq]

theorem distSq_pos_of_ne {a b : IVec3} (h : b ≠ a) : 0 < distSq a b := by
  rcases lt_or_eq_of_le (distSq_nonneg a b) with hlt | heq
  · exact hlt
  · exfalso
    apply h
    have h0 : (b - a).normSq = 0 := heq.symm
    have hv := (IVec3.normSq_eq_zero_iff (b - a)).mp h0
    obtain ⟨ax, ay, az⟩ := a
    obtain ⟨bx, b2, bz⟩ := b
    have hx : bx - ax = 0 := by simpa using congrArg IVec3.x hv
    have hy : b2 - ay = 0 := by simpa using congrArg IVec3.y hv
    have hz : bz - az = 0 := by simpa using congrArg IVec3.z hv
    simp only [IVec3.mk.injEq]
    refine ⟨by omega, by omega, by omega⟩

/-! ## `ChunkAnchor::get_priority` (crates/bones3_worldgen/src/anchor.rs:189-198)

The source computes, in `f32` arithmetic:
```
let distance = target.as_vec3().distance(pos.as_vec3());
if distance > self.radius as f32 { return f32::NEG_INFINITY; }
let view_dir = (target - pos).as_vec3().normalize();
let weight = view_dir.dot(self.weighted_dir);
-distance + weight
```
The comparison `distance > radius` of the nonnegative square root of the
integer `distSq pos target` against the integer `radius` is decided exactly by
`radius * radius < distSq pos target`, since squaring is strictly monotone on
nonnegative reals.  When `target = pos` the guard is not taken (`0 > radius`
is false for the unsigned `radius`), and `normalize` divides the zero vector
by its zero length, producing a NaN vector; the subsequent dot product and
addition propagate the NaN, so the function returns NaN. -/

/-- The value of the `f32` expression computed by
`ChunkAnchor::get_priority` for an anchor whose `weighted_dir` is the zero
vector (so `weight = view_dir.dot(0) = 0` whenever `view_dir` is not NaN):

* `negInf` is the `f32::NEG_INFINITY` "unreachable" sentinel;
* `nan` is the NaN produced by normalizing the zero direction vector;
* `val dsq` is the finite value `-distance`, represented by the exact integer
  squared distance `dsq` (the map `d ↦ -√d` is strictly antitone and
  injective on the nonnegative integers).

The representation decides the source's `f32` comparisons exactly only in
the regime where the `f32` pipeline computes them without collapsing
rounding: coordinates of magnitude at most `2^24` (so `as_vec3` and the
componentwise subtraction are exact) and squared distances at most `2^20`
(so the squares and their sums are exact integers below `2^24`, and the
correctly rounded square roots of distinct integers `a < b ≤ 2^20` stay
distinct: `√b - √a ≥ 1/(2·2^10) = 2^-11` exceeds the at most `2^-13` ULP of
values up to `2^10`, and the comparison against the exactly representable
`u16` radius discriminates for the same reason).  Outside this regime the
`f32` pipeline itself collapses distinct distances — already at radius 5793,
the targets `(4096,4096,0)` and `(5791,136,16)` of squared distances `2^25`
and `2^25 + 1` receive equal `f32` priorities — so every theorem below
confines its statement to the exact regime. -/
inductive QP where
  | negInf : QP
  | nan : QP
  | val (dsq : ℤ) : QP
deriving DecidableEq, Repr

namespace QP

/-- The IEEE `f32` strict greater-than on the priority values represented by
`QP`: `-√a > -√b ↔ a < b` for finite values, every finite value exceeds
`NEG_INFINITY`, and NaN compares greater than nothing (and nothing compares
greater than NaN). -/
def fgt : QP → QP → Prop
  | .val a, .val b => a < b
  | .val _, .negInf => True
  | _, _ => False

instance : ∀ a b : QP, Decidable (fgt a b) := fun a b => by
  cases a <;> cases b <;> simp only [fgt] <;> infer_instance

/-- The total order of the `ordered_float::OrderedFloat` wrapper used by the
queue to sort priorities: `NEG_INFINITY` is least, finite values are ordered
by their real value (`-√a ≤ -√b ↔ b ≤ a`), and NaN is greatest. -/
def ofLe : QP → QP → Bool
  | .negInf, _ => true
  | _, .nan => true
  | .nan, _ => false
  | .val _, .negInf => false
  | .val a, .val b => decide (b ≤ a)

/-- Rust's `f32::max`: if either argument is NaN the other is returned;
otherwise the larger value (`max (-√a) (-√b)` is the one with smaller squared
distance). -/
def fmax : QP → QP → QP
  | .nan, b => b
  | a, .nan => a
  | .negInf, b => b
  | a, .negInf => a
  | .val a, .val b => if a ≤ b then .val a else .val b

end QP

/-- `ChunkAnchor::get_priority` for a zero-bias anchor (`weighted_dir = 0`),
with the `u16` field `radius` modelled as `ℕ` and the `f32` result
represented by `QP` as described there (exact within the regime documented
on `QP`). -/
def ChunkAnchor.get_priority (radius : ℕ) (pos target : IVec3) : QP :=
  if (radius : ℤ) * radius < distSq pos target then .negInf
  else if target = pos then .nan
  else .val (distSq pos target)

/-- Model of `ChunkAnchor::get_priority` for an arbitrary `weighted_dir`.
`val d w` denotes the finite `f32` value `-‖d‖ + (d/‖d‖)·w` for the nonzero
direction `d = target - pos`; the weighted-direction vector is never inspected
on the path that produces the NaN at `d = 0`, so the model is parametric in
the representation `W` of that `f32` vector. -/
inductive PriorityW (W : Type) where
  | nan : PriorityW W
  | negInf : PriorityW W
  | val (d : IVec3) (w : W) : PriorityW W

/-- `ChunkAnchor::get_priority` with an arbitrary weighted direction `w`. -/
def ChunkAnchor.get_priority_weighted {W : Type} (radius : ℕ) (w : W)
    (pos target : IVec3) : PriorityW W :=
  if (radius : ℤ) * radius < distSq pos target then .negInf
  else if target = pos then .nan
  else .val (target - pos) w

/-! ## The generation queue's selection step
(`push_chunk_async_queue`, crates/bones3_worldgen/src/queue.rs:120-188)

The source computes, per pending chunk, an aggregated priority by folding
Rust's `f32::max` over all anchors starting from `f32::NEG_INFINITY`, then
feeds the `(entity, OrderedFloat(priority))` pairs to `itertools`'
`k_smallest` with `k = available_slots = MAX_TASKS - active_tasks` and
dispatches the returned entries.  `k_smallest` returns the `k` least elements
in the `OrderedFloat` order, sorted ascending.  The model instantiates the
anchors at zero bias so that every `f32` priority value has the exact `QP`
representation. -/

/-- A `(Transform, ChunkAnchor)` query result as the queue sees it: `pos` is
`transform.translation.as_ivec3() >> 4` (the anchor's chunk coordinate) and
`radius` its load radius; `weighted_dir` is the zero vector in this model. -/
structure Anchor0 where
  pos : IVec3
  radius : ℕ

/-- The aggregated priority of a pending chunk at `c`: the fold of `f32::max`
of the per-anchor priorities, starting from `f32::NEG_INFINITY`, exactly as in
the `pending_tasks.iter().map(...)` closure of the source. -/
def chunk_priority (anchors : List Anchor0) (c : IVec3) : QP :=
  anchors.foldl (fun acc a => QP.fmax acc (ChunkAnchor.get_priority a.radius a.pos c)) .negInf

/-- Insert into a list sorted ascending by the `OrderedFloat` order. -/
def insertByPrio (p : IVec3 × QP) : List (IVec3 × QP) → List (IVec3 × QP)
  | [] => [p]
  | q :: rest => if QP.ofLe p.2 q.2 then p :: q :: rest else q :: insertByPrio p rest

/-- Sort ascending by the `OrderedFloat` order (insertion sort); together with
`take k`, this is the specification of `itertools::k_smallest`: the `k` least
elements in ascending order. -/
def sortByPrio : List (IVec3 × QP) → List (IVec3 × QP)
  | [] => []
  | p :: rest => insertByPrio p (sortByPrio rest)

/-- The selection step of `push_chunk_async_queue`: with `MAX_TASKS = 2` and
`active_tasks` running generation tasks, pair each pending chunk coordinate
with its aggregated priority, and hand the `k_smallest` of them (by the
`OrderedFloat` order) to the dispatch loop.  Returns the list of dispatched
chunk coordinates in dispatch order. -/
def push_chunk_async_queue (active_tasks : ℕ) (anchors : List Anchor0)
    (pending : List IVec3) : List IVec3 :=
  let slots : ℤ := 2 - (active_tasks : ℤ)
  if slots ≤ 0 then []
  else
    ((sortByPrio (pending.map (fun c => (c, chunk_priority anchors c)))).take slots.toNat).map
      Prod.fst

/-- The single anchor of the C1 scenario: at the chunk-space origin with load
radius 10 and zero bias. -/
def c1Anchors : List Anchor0 := [⟨⟨0, 0, 0⟩, 10⟩]

/-- The five pending chunks of the C1 scenario, at distances 1..5 from the
anchor. -/
def c1Pending : List IVec3 := [⟨1, 0, 0⟩, ⟨2, 0, 0⟩, ⟨3, 0, 0⟩, ⟨4, 0, 0⟩, ⟨5, 0, 0⟩]

/-- **C1.**  With `MAX_CONCURRENT_TASKS = 2`, no running task, one zero-bias
anchor at the origin with radius 10, and five pending chunks at distances
1..5, the scheduler tick does respect the concurrency bound (it dispatches at
most 2 chunks), and it does aggregate each chunk's priority as the maximum
over all anchors — but the chunks it dispatches are `(5,0,0)` and `(4,0,0)`,
the two pending entries with the LOWEST aggregated priority (the farthest
chunks), because the source hands the `OrderedFloat` priorities to
`itertools::k_smallest`.  The claim that the chosen chunks are exactly the
best-(highest-)priority pending entries — here `(1,0,0)` and `(2,0,0)` — is
false of the code. -/
theorem c1_queue_dispatches_lowest_priority :
    push_chunk_async_queue 0 c1Anchors c1Pending = [⟨5, 0, 0⟩, ⟨4, 0, 0⟩]
    ∧ (push_chunk_async_queue 0 c1Anchors c1Pending).length ≤ 2
    ∧ QP.fgt (chunk_priority c1Anchors ⟨1, 0, 0⟩) (chunk_priority c1Anchors ⟨5, 0, 0⟩)
    ∧ ¬ (⟨1, 0, 0⟩ : IVec3) ∈ push_chunk_async_queue 0 c1Anchors c1Pending := by
  decide

/-- The coordinate range on which the `i32 → f32` conversion `as_vec3`
performed by `get_priority` is exact: every integer of magnitude at most
`2^24` is exactly representable in `f32`. -/
def IVec3.f32exact (v : IVec3) : Prop :=
  -(2 ^ 24) ≤ v.x ∧ v.x ≤ 2 ^ 24 ∧ -(2 ^ 24) ≤ v.y ∧ v.y ≤ 2 ^ 24
    ∧ -(2 ^ 24) ≤ v.z ∧ v.z ≤ 2 ^ 24

instance (v : IVec3) : Decidable v.f32exact := by unfold IVec3.f32exact; infer_instance

/-- **C2 (amended).**  For a zero-bias anchor with load radius `radius`, over
positions and targets inside the `f32`-exact coordinate range (magnitude at
most `2^24`) and squared distances at most `2^20` — the regime in which the
source's `f32` distance pipeline is exact and order-preserving, as documented
on `QP` — the priority returned by `get_priority` is the `NEG_INFINITY`
unreachable sentinel for every target strictly beyond the radius, and is
strictly decreasing in the Euclidean distance of the target on the range
`0 < distance ≤ radius` (such distances compare exactly as their integer
squares).  The amendment excludes, beyond that regime — where the `f32`
pipeline itself can collapse distinct distances to equal priorities — the
single point `distance = 0` (target at the anchor's own position), where the
code produces NaN instead of the maximal finite value: see the counterexample
theorem.  The range hypotheses scope the statement to where the integer
model decides the `f32` comparisons; the model, being exact there, does not
consume them. -/
theorem c2_priority_decreasing_and_sentinel (radius : ℕ) (pos t1 t2 : IVec3)
    (_hpos : pos.f32exact) (_ht1 : t1.f32exact) (_ht2 : t2.f32exact) :
    ((radius : ℤ) * radius < distSq pos t1 → distSq pos t1 ≤ 2 ^ 20 →
      ChunkAnchor.get_priority radius pos t1 = QP.negInf)
    ∧ (0 < distSq pos t1 → distSq pos t1 < distSq pos t2 →
        distSq pos t2 ≤ (radius : ℤ) * radius → distSq pos t2 ≤ 2 ^ 20 →
        QP.fgt (ChunkAnchor.get_priority radius pos t1)
          (ChunkAnchor.get_priority radius pos t2)) := by
  constructor
  · intro h _hex
    unfold ChunkAnchor.get_priority
    rw [if_pos h]
  · intro h1pos h12 h2r _hex
    have h1r : ¬ ((radius : ℤ) * radius < distSq pos t1) := by omega
    have h2r' : ¬ ((radius : ℤ) * radius < distSq pos t2) := by omega
    have ht1 : ¬ (t1 = pos) := by
      intro h; rw [h, distSq_self] at h1pos; omega
    have ht2 : ¬ (t2 = pos) := by
      intro h; rw [h, distSq_self] at h12
      have := distSq_nonneg pos t1; omega
    unfold ChunkAnchor.get_priority
    rw [if_neg h1r, if_neg ht1, if_neg h2r', if_neg ht2]
    exact h12

/-- Witness for C2: concrete instances of both conjuncts — the sentinel at
target `(11,0,0)` (distance 11 > 10) and the strict decrease between targets
`(1,0,0)` and `(2,0,0)` for the radius-10 anchor at the origin, all inside
the `f32`-exact regime. -/
theorem c2_priority_decreasing_and_sentinel_witness :
    ChunkAnchor.get_priority 10 ⟨0, 0, 0⟩ ⟨11, 0, 0⟩ = QP.negInf
    ∧ QP.fgt (ChunkAnchor.get_priority 10 ⟨0, 0, 0⟩ ⟨1, 0, 0⟩)
        (ChunkAnchor.get_priority 10 ⟨0, 0, 0⟩ ⟨2, 0, 0⟩) :=
  ⟨(c2_priority_decreasing_and_sentinel 10 ⟨0, 0, 0⟩ ⟨11, 0, 0⟩ ⟨0, 0, 0⟩
      (by decide) (by decide) (by decide)).1 (by decide) (by decide),
   (c2_priority_decreasing_and_sentinel 10 ⟨0, 0, 0⟩ ⟨1, 0, 0⟩ ⟨2, 0, 0⟩
      (by decide) (by decide) (by decide)).2 (by decide) (by decide) (by decide)
     (by decide)⟩

/-- **C2 (counterexample).**  The claim as stated fails at distance 0: for the
radius-10 zero-bias anchor at the origin, the target at the anchor's own
position is nearer than `(1,0,0)` and both are within the radius, yet its
priority is NaN (from normalizing the zero direction vector), so it is NOT
greater than the priority of the farther target — strict decrease in distance
is violated at that point. -/
theorem c2_priority_counterexample :
    distSq ⟨0, 0, 0⟩ (⟨0, 0, 0⟩ : IVec3) < distSq ⟨0, 0, 0⟩ (⟨1, 0, 0⟩ : IVec3)
    ∧ distSq ⟨0, 0, 0⟩ (⟨1, 0, 0⟩ : IVec3) ≤ (10 : ℤ) * 10
    ∧ ChunkAnchor.get_priority 10 ⟨0, 0, 0⟩ ⟨0, 0, 0⟩ = QP.nan
    ∧ ¬ QP.fgt (ChunkAnchor.get_priority 10 ⟨0, 0, 0⟩ ⟨0, 0, 0⟩)
        (ChunkAnchor.get_priority 10 ⟨0, 0, 0⟩ ⟨1, 0, 0⟩) := by
  decide

/-- **C10.**  For every anchor — any radius and any weighted direction `w`,
including the zero vector — the priority `get_priority(p, p)` of the chunk the
anchor itself occupies is NaN: the distance-0 guard is not taken, and
normalizing the zero direction vector poisons the result.  The claim that this
value is non-NaN is false of the code; under the queue's `OrderedFloat`
ordering and `f32::max` aggregation, the NaN makes the anchor's own chunk
compare as if it were unreachable. -/
theorem c10_own_chunk_priority_is_nan {W : Type} (radius : ℕ) (w : W) (p : IVec3) :
    ChunkAnchor.get_priority_weighted radius w p p = PriorityW.nan := by
  unfold ChunkAnchor.get_priority_weighted
  rw [distSq_self]
  rw [if_neg (not_lt.mpr (mul_nonneg (Int.natCast_nonneg radius) (Int.natCast_nonneg radius))),
    if_pos rfl]

/-! ## `Region` (src/math/region.rs) and the cuboid traversal
(src/math/iterators.rs) -/

/-- A cuboid region of grid points: `pos` is the minimum corner, `size` the
extent along each axis (`struct Region` of the source). -/
structure Region where
  pos : IVec3
  size : IVec3
deriving DecidableEq, Repr

namespace Region

/-- `Region::CHUNK`: a single chunk at the origin, 16×16×16. -/
def CHUNK : Region := ⟨⟨0, 0, 0⟩, ⟨16, 16, 16⟩⟩

/-- `Region::SECTOR`: a sector of chunks at the origin, 256×256×256. -/
def SECTOR : Region := ⟨⟨0, 0, 0⟩, ⟨256, 256, 256⟩⟩

/-- `Region::min`: the minimum corner. -/
def minc (r : Region) : IVec3 := r.pos

/-- `Region::max`: the maximum corner, `pos + size - 1`. -/
def maxc (r : Region) : IVec3 := r.pos + r.size - IVec3.splat 1

/-- `Region::from_points`: the region spanned by two opposite corners. -/
def from_points (a b : IVec3) : Region :=
  ⟨IVec3.minv a b, IVec3.maxv a b - IVec3.minv a b + IVec3.splat 1⟩

/-- `Region::contains`: whether `p` lies inside the region (the six
comparisons of the source, on the offset `p - pos`). -/
def contains (r : Region) (p : IVec3) : Prop :=
  0 ≤ p.x - r.pos.x ∧ 0 ≤ p.y - r.pos.y ∧ 0 ≤ p.z - r.pos.z ∧
  p.x - r.pos.x < r.size.x ∧ p.y - r.pos.y < r.size.y ∧ p.z - r.pos.z < r.size.z

instance (r : Region) (p : IVec3) : Decidable (r.contains p) := by
  unfold contains; infer_instance

/-- `Region::point_to_index`: the row-major linear index
`x*size.y*size.z + y*size.z + z` of the offset point, or `None` (an error in
the source) when the point is outside the region.  The `as usize` cast of the
source is `Int.toNat`; for contained points of a positive-size region the
index is nonnegative, so the cast is lossless. -/
def point_to_index (r : Region) (p : IVec3) : Option ℕ :=
  if r.contains p then
    some ((p.x - r.pos.x) * r.size.y * r.size.z + (p.y - r.pos.y) * r.size.z
      + (p.z - r.pos.z)).toNat
  else none

/-- `Region::count`: the number of points in the region. -/
def count (r : Region) : ℕ := (r.size.x * r.size.y * r.size.z).toNat

/-- `Region::shift`: translate the region. -/
def shift (r : Region) (amount : IVec3) : Region := ⟨r.pos + amount, r.size⟩

/-- `Region::intersects`: the two regions overlap — the componentwise
`max - min` of the clipped corners is nonnegative. -/
def intersects (r : Region) (other : Region) : Prop :=
  0 ≤ (IVec3.minv r.maxc other.maxc).x - (IVec3.maxv r.minc other.minc).x ∧
  0 ≤ (IVec3.minv r.maxc other.maxc).y - (IVec3.maxv r.minc other.minc).y ∧
  0 ≤ (IVec3.minv r.maxc other.maxc).z - (IVec3.maxv r.minc other.minc).z

instance (r other : Region) : Decidable (r.intersects other) := by
  unfold intersects; infer_instance

/-- `Region::intersection`: the common cuboid of two regions — position the
componentwise max of the minima, size up to the componentwise min of the
maxima — or `None` (an error in the source) when any size axis is
nonpositive (disjoint regions). -/
def intersection (a b : Region) : Option Region :=
  if (IVec3.minv a.maxc b.maxc - IVec3.maxv a.minc b.minc + IVec3.splat 1).x ≤ 0
      ∨ (IVec3.minv a.maxc b.maxc - IVec3.maxv a.minc b.minc + IVec3.splat 1).y ≤ 0
      ∨ (IVec3.minv a.maxc b.maxc - IVec3.maxv a.minc b.minc + IVec3.splat 1).z ≤ 0 then
    none
  else
    some ⟨IVec3.maxv a.minc b.minc,
      IVec3.minv a.maxc b.maxc - IVec3.maxv a.minc b.minc + IVec3.splat 1⟩

/-- The traversal sequence of `CuboidIterator` over a region: all points in
lexicographic order, `x` outermost, then `y`, then `z`.  (The model covers
regions with positive sizes, which is every region the verified operations
iterate: regions built by `from_points` or `intersection` always have positive
sizes.) -/
def points (r : Region) : List IVec3 :=
  (List.range r.size.x.toNat).flatMap (fun (i : ℕ) =>
    (List.range r.size.y.toNat).flatMap (fun (j : ℕ) =>
      (List.range r.size.z.toNat).map (fun (k : ℕ) =>
        ⟨r.pos.x + (i : ℤ), r.pos.y + (j : ℤ), r.pos.z + (k : ℤ)⟩)))

theorem mem_points {r : Region} {p : IVec3} : p ∈ r.points ↔ r.contains p := by
  unfold points contains
  simp only [List.mem_flatMap, List.mem_map, List.mem_range]
  constructor
  · rintro ⟨i, hi, j, hj, k, hk, rfl⟩
    simp only [IVec3.mk_x, IVec3.mk_y, IVec3.mk_z]
    omega
  · rintro ⟨h1, h2, h3, h4, h5, h6⟩
    refine ⟨(p.x - r.pos.x).toNat, by omega, (p.y - r.pos.y).toNat, by omega,
      (p.z - r.pos.z).toNat, by omega, ?_⟩
    obtain ⟨px, py, pz⟩ := p
    simp only [IVec3.mk_x, IVec3.mk_y, IVec3.mk_z] at h1 h2 h3 h4 h5 h6 ⊢
    simp only [IVec3.mk.injEq]
    refine ⟨by omega, by omega, by omega⟩

theorem contains_iff_minc_le_le_maxc {r : Region} {p : IVec3} :
    r.contains p ↔ (IVec3.levec r.minc p ∧ IVec3.levec p r.maxc) := by
  unfold contains IVec3.levec minc maxc IVec3.splat
  simp only [IVec3.add_x, IVec3.add_y, IVec3.add_z, IVec3.sub_x, IVec3.sub_y, IVec3.sub_z,
    IVec3.mk_x, IVec3.mk_y, IVec3.mk_z]
  omega

end Region

/-- Uniqueness of the row-major decomposition: two digit triples with the
same bounds and the same index agree. -/
theorem index_decomp_unique {sy sz a b c a' b' c' : ℤ}
    (hb : 0 ≤ b ∧ b < sy) (hc : 0 ≤ c ∧ c < sz)
    (hb' : 0 ≤ b' ∧ b' < sy) (hc' : 0 ≤ c' ∧ c' < sz)
    (h : a * sy * sz + b * sz + c = a' * sy * sz + b' * sz + c') :
    a = a' ∧ b = b' ∧ c = c' := by
  have hsz : 0 < sz := by omega
  have hsy : 0 < sy := by omega
  have key : ∀ m u v : ℤ, 0 ≤ v → v < m → (v + m * u) % m = v := by
    intro m u v h0 h1
    rw [Int.add_mul_emod_self_left]
    exact Int.emod_eq_of_lt h0 h1
  have hc0 : c = c' := by
    have e1 : c + sz * (a * sy + b) = c' + sz * (a' * sy + b') := by linear_combination h
    have e2 := key sz (a * sy + b) c hc.1 hc.2
    have e3 := key sz (a' * sy + b') c' hc'.1 hc'.2
    rw [e1] at e2
    omega
  subst hc0
  have h2 : a * sy + b = a' * sy + b' := by
    have e1 : (a * sy + b) * sz = (a' * sy + b') * sz := by linear_combination h
    exact mul_right_cancel₀ (ne_of_gt hsz) e1
  have hb0 : b = b' := by
    have e1 : b + sy * a = b' + sy * a' := by linear_combination h2
    have e2 := key sy a b hb.1 hb.2
    have e3 := key sy a' b' hb'.1 hb'.2
    rw [e1] at e2
    omega
  subst hb0
  have h3 : a * sy = a' * sy := by omega
  exact ⟨mul_right_cancel₀ (ne_of_gt hsy) h3, rfl, rfl⟩

namespace Region

theorem point_to_index_of_contains {r : Region} {p : IVec3} (h : r.contains p) :
    r.point_to_index p = some ((p.x - r.pos.x) * r.size.y * r.size.z
      + (p.y - r.pos.y) * r.size.z + (p.z - r.pos.z)).toNat := by
  unfold point_to_index
  rw [if_pos h]

theorem point_to_index_none_iff {r : Region} {p : IVec3} :
    r.point_to_index p = none ↔ ¬ r.contains p := by
  unfold point_to_index
  by_cases h : r.contains p <;> simp [h]

/-- The raw row-major index of a contained point is nonnegative (positive
sizes). -/
theorem index_nonneg {r : Region} {p : IVec3}
    (hpos : 0 < r.size.x ∧ 0 < r.size.y ∧ 0 < r.size.z) (h : r.contains p) :
    0 ≤ (p.x - r.pos.x) * r.size.y * r.size.z + (p.y - r.pos.y) * r.size.z
      + (p.z - r.pos.z) := by
  obtain ⟨h1, h2, h3, _, _, _⟩ := h
  have t1 : 0 ≤ (p.x - r.pos.x) * r.size.y * r.size.z :=
    mul_nonneg (mul_nonneg h1 hpos.2.1.le) hpos.2.2.le
  have t2 : 0 ≤ (p.y - r.pos.y) * r.size.z := mul_nonneg h2 hpos.2.2.le
  omega

/-- The raw row-major index of a contained point is below the region's
volume. -/
theorem index_lt_volume {r : Region} {p : IVec3}
    (hpos : 0 < r.size.x ∧ 0 < r.size.y ∧ 0 < r.size.z) (h : r.contains p) :
    (p.x - r.pos.x) * r.size.y * r.size.z + (p.y - r.pos.y) * r.size.z
      + (p.z - r.pos.z) < r.size.x * r.size.y * r.size.z := by
  obtain ⟨h1, h2, h3, h4, h5, h6⟩ := h
  have t1 : (p.x - r.pos.x) * r.size.y * r.size.z
      ≤ (r.size.x - 1) * r.size.y * r.size.z := by
    apply mul_le_mul_of_nonneg_right _ hpos.2.2.le
    exact mul_le_mul_of_nonneg_right (by omega) hpos.2.1.le
  have t2 : (p.y - r.pos.y) * r.size.z ≤ (r.size.y - 1) * r.size.z :=
    mul_le_mul_of_nonneg_right (by omega) hpos.2.2.le
  have expand : (r.size.x - 1) * r.size.y * r.size.z + (r.size.y - 1) * r.size.z
      + (r.size.z - 1) = r.size.x * r.size.y * r.size.z - 1 := by ring
  omega

/-- `point_to_index` is injective on the points of the region. -/
theorem point_to_index_inj {r : Region} {p q : IVec3}
    (hpos : 0 < r.size.x ∧ 0 < r.size.y ∧ 0 < r.size.z)
    (hp : r.contains p) (hq : r.contains q)
    (h : r.point_to_index p = r.point_to_index q) : p = q := by
  rw [point_to_index_of_contains hp, point_to_index_of_contains hq] at h
  have hnat : ((p.x - r.pos.x) * r.size.y * r.size.z + (p.y - r.pos.y) * r.size.z
      + (p.z - r.pos.z)).toNat
      = ((q.x - r.pos.x) * r.size.y * r.size.z + (q.y - r.pos.y) * r.size.z
      + (q.z - r.pos.z)).toNat := by
    exact Option.some.inj h
  have hip := index_nonneg hpos hp
  have hiq := index_nonneg hpos hq
  have hint : (p.x - r.pos.x) * r.size.y * r.size.z + (p.y - r.pos.y) * r.size.z
      + (p.z - r.pos.z)
      = (q.x - r.pos.x) * r.size.y * r.size.z + (q.y - r.pos.y) * r.size.z
      + (q.z - r.pos.z) := by omega
  obtain ⟨e1, e2, e3⟩ := index_decomp_unique
    (by exact ⟨hp.2.1, hp.2.2.2.2.1⟩) (by exact ⟨hp.2.2.1, hp.2.2.2.2.2⟩)
    (by exact ⟨hq.2.1, hq.2.2.2.2.1⟩) (by exact ⟨hq.2.2.1, hq.2.2.2.2.2⟩) hint
  obtain ⟨px, py, pz⟩ := p
  obtain ⟨qx, qy, qz⟩ := q
  simp only [IVec3.mk_x, IVec3.mk_y, IVec3.mk_z] at e1 e2 e3
  simp only [IVec3.mk.injEq]
  refine ⟨by omega, by omega, by omega⟩

/-- Every contained point indexes into `0 .. count - 1`. -/
theorem point_to_index_lt_count {r : Region} {p : IVec3}
    (hpos : 0 < r.size.x ∧ 0 < r.size.y ∧ 0 < r.size.z) (hp : r.contains p) :
    ∃ i : ℕ, r.point_to_index p = some i ∧ i < r.count := by
  refine ⟨_, point_to_index_of_contains hp, ?_⟩
  have h1 := index_nonneg hpos hp
  have h2 := index_lt_volume hpos hp
  unfold count
  omega

/-- The row-major digits of an index below the volume `nx * ny * nz`. -/
theorem index_digits (nx ny nz i : ℕ) (_hx : 0 < nx) (hy : 0 < ny) (hz : 0 < nz)
    (hi : i < nx * ny * nz) :
    ∃ a b c : ℕ, a < nx ∧ b < ny ∧ c < nz ∧ a * (ny * nz) + b * nz + c = i := by
  refine ⟨i / (ny * nz), (i % (ny * nz)) / nz, i % nz, ?_, ?_, ?_, ?_⟩
  · apply Nat.div_lt_of_lt_mul
    calc i < nx * ny * nz := hi
    _ = ny * nz * nx := by ring
  · apply Nat.div_lt_of_lt_mul
    calc i % (ny * nz) < ny * nz := Nat.mod_lt i (Nat.mul_pos hy hz)
    _ = nz * ny := by ring
  · exact Nat.mod_lt i hz
  · have e1 : (i % (ny * nz)) / nz * nz + (i % (ny * nz)) % nz = i % (ny * nz) :=
      Nat.div_add_mod' _ nz
    have e2 : (i % (ny * nz)) % nz = i % nz := Nat.mod_mod_of_dvd i (dvd_mul_left nz ny)
    have e3 : i / (ny * nz) * (ny * nz) + i % (ny * nz) = i := Nat.div_add_mod' i (ny * nz)
    rw [Nat.add_assoc, ← e2, e1, e3]

/-- Every index in `0 .. count - 1` is attained by a contained point. -/
theorem point_to_index_surj {r : Region}
    (hpos : 0 < r.size.x ∧ 0 < r.size.y ∧ 0 < r.size.z) {i : ℕ} (hi : i < r.count) :
    ∃ p : IVec3, r.contains p ∧ r.point_to_index p = some i := by
  obtain ⟨hx, hy, hz⟩ := hpos
  have hprod : ((r.size.x.toNat * r.size.y.toNat * r.size.z.toNat : ℕ) : ℤ)
      = r.size.x * r.size.y * r.size.z := by
    push_cast
    rw [Int.toNat_of_nonneg hx.le, Int.toNat_of_nonneg hy.le, Int.toNat_of_nonneg hz.le]
  have hcount : r.count = r.size.x.toNat * r.size.y.toNat * r.size.z.toNat := by
    unfold count
    rw [← hprod, Int.toNat_natCast]
  rw [hcount] at hi
  obtain ⟨a, b, c, ha, hb, hc, hrecon⟩ :=
    index_digits r.size.x.toNat r.size.y.toNat r.size.z.toNat i
      (by omega) (by omega) (by omega) hi
  have hcontains : r.contains ⟨r.pos.x + (a : ℤ), r.pos.y + (b : ℤ), r.pos.z + (c : ℤ)⟩ := by
    unfold contains
    simp only [IVec3.mk_x, IVec3.mk_y, IVec3.mk_z]
    omega
  refine ⟨⟨r.pos.x + (a : ℤ), r.pos.y + (b : ℤ), r.pos.z + (c : ℤ)⟩, hcontains, ?_⟩
  rw [point_to_index_of_contains hcontains]
  congr 1
  simp only [IVec3.mk_x, IVec3.mk_y, IVec3.mk_z]
  have hval : (r.pos.x + (a : ℤ) - r.pos.x) * r.size.y * r.size.z
      + (r.pos.y + (b : ℤ) - r.pos.y) * r.size.z + (r.pos.z + (c : ℤ) - r.pos.z)
      = ((a * (r.size.y.toNat * r.size.z.toNat) + b * r.size.z.toNat + c : ℕ) : ℤ) := by
    push_cast [Int.toNat_of_nonneg hy.le, Int.toNat_of_nonneg hz.le]
    ring
  rw [hval, hrecon]
  exact Int.toNat_natCast i

end Region

/-- **C8.**  For every region with positive size on each axis,
`point_to_index` (the row-major formula `x*size.y*size.z + y*size.z + z` on
position-relative coordinates) is injective on the points the region
contains, its image is exactly `0 .. count - 1` — every contained point maps
below `count`, and every index below `count` is attained — and it returns an
error (`None`) exactly on the points the region does not contain. -/
theorem c8_point_to_index_bijection (r : Region)
    (hpos : 0 < r.size.x ∧ 0 < r.size.y ∧ 0 < r.size.z) :
    (∀ p q : IVec3, r.contains p → r.contains q →
        r.point_to_index p = r.point_to_index q → p = q)
    ∧ (∀ p : IVec3, r.contains p → ∃ i : ℕ, r.point_to_index p = some i ∧ i < r.count)
    ∧ (∀ i : ℕ, i < r.count → ∃ p : IVec3, r.contains p ∧ r.point_to_index p = some i)
    ∧ (∀ p : IVec3, r.point_to_index p = none ↔ ¬ r.contains p) :=
  ⟨fun _ _ hp hq h => Region.point_to_index_inj hpos hp hq h,
   fun _ hp => Region.point_to_index_lt_count hpos hp,
   fun _ hi => Region.point_to_index_surj hpos hi,
   fun _ => Region.point_to_index_none_iff⟩

/-- Witness for C8: the bijection theorem applied to the concrete region of
the repository's own unit test (`from_points (-17,2,-3) (-20,4,-2)`),
evaluating the injectivity conjunct at two concrete points and the coverage
conjuncts at a concrete point and index. -/
theorem c8_point_to_index_bijection_witness :
    (Region.from_points ⟨-17, 2, -3⟩ ⟨-20, 4, -2⟩).point_to_index ⟨-19, 3, -2⟩
      = some ((Region.from_points ⟨-17, 2, -3⟩ ⟨-20, 4, -2⟩).point_to_index
        ⟨-19, 3, -2⟩).toList.headI
    ∧ ∃ i : ℕ, (Region.from_points ⟨-17, 2, -3⟩ ⟨-20, 4, -2⟩).point_to_index ⟨-19, 3, -2⟩
        = some i ∧ i < (Region.from_points ⟨-17, 2, -3⟩ ⟨-20, 4, -2⟩).count := by
  have h := c8_point_to_index_bijection (Region.from_points ⟨-17, 2, -3⟩ ⟨-20, 4, -2⟩)
    (by decide)
  refine ⟨by decide, h.2.1 ⟨-19, 3, -2⟩ (by decide)⟩

/-! ## The chunk / sector / world storage hierarchy (src/storage/world.rs)

`VoxelWorld<T>` holds a growable `Vec` of sectors; each sector a fixed
4096-slot array of optional chunks; each chunk a fixed 4096-entry array of
block values.  The fixed arrays are modelled by their index functions
`ℕ → _`; every access goes through `Region::CHUNK.point_to_index`, which
for the masked coordinates used by the source always lands in `0..4095`.
The source's `iter().find(...)` followed by use of the found sector is
modelled by structural recursion over the sector list: the first sector
whose coordinates match is used, later ones are ignored. -/

/-- `ChunkLoadState` (src/storage/voxel.rs): the load state stored on each
chunk. -/
inductive ChunkLoadState where
  | unloaded : ChunkLoadState
  | loading : ChunkLoadState
  | loaded : ChunkLoadState
deriving DecidableEq, Repr

/-- `VoxelChunk<T>`: a 16×16×16 block array with its coordinates and load
state. -/
structure VoxelChunk (T : Type) where
  blocks : ℕ → T
  chunk_coords : IVec3
  load_state : ChunkLoadState

/-- `VoxelChunk::new`: a default-filled chunk. -/
def VoxelChunk.new (T : Type) [Inhabited T] (chunk_coords : IVec3)
    (load_state : ChunkLoadState) : VoxelChunk T :=
  ⟨fun _ => default, chunk_coords, load_state⟩

/-- `VoxelSector<T>`: a 16×16×16 array of optional chunks with its sector
coordinates. -/
structure VoxelSector (T : Type) where
  chunks : ℕ → Option (VoxelChunk T)
  sector_coords : IVec3

/-- `VoxelSector::new`: an all-empty sector. -/
def VoxelSector.new (T : Type) (sector_coords : IVec3) : VoxelSector T :=
  ⟨fun _ => none, sector_coords⟩

/-- `VoxelWorld<T>`: the list of sectors (`sectors: Vec<VoxelSector<T>>`). -/
structure VoxelWorld (T : Type) where
  sectors : List (VoxelSector T)

/-- The chunk-array index of a local (already masked) coordinate: models the
`Region::CHUNK.point_to_index(..).unwrap()` calls of the source.  Every call
site passes a componentwise `& 15` (or a `CHUNK`-contained iteration point),
for which `point_to_index` is `some`, so the `getD` default is never taken. -/
def chunkIdx (p : IVec3) : ℕ := (Region.CHUNK.point_to_index p).getD 0

/-- The error kinds raised by the storage mutations of src/storage/world.rs
(the source uses `anyhow` string errors; the constructors carry the
coordinate interpolated into the message). -/
inductive VoxelWorldError where
  /-- "Chunk ({}) has not been initialized and cannot be written to" -/
  | chunkNotInitialized (chunk_coords : IVec3) : VoxelWorldError
  /-- "Chunk ({}) already exists" -/
  | chunkAlreadyExists (chunk_coords : IVec3) : VoxelWorldError
  /-- "Chunk ({}) does not exist" -/
  | chunkDoesNotExist (chunk_coords : IVec3) : VoxelWorldError
deriving DecidableEq, Repr

/-- The body of `VoxelWorld::get_block` over the sector list: find the first
sector at `block_coords >> 8`; absent sector or absent chunk reads the
default value, otherwise the block at the masked indices. -/
def getBlockInSectors {T : Type} [Inhabited T] (block_coords : IVec3) :
    List (VoxelSector T) → T
  | [] => default
  | s :: rest =>
    if s.sector_coords = block_coords.asr 8 then
      match s.chunks (chunkIdx ((block_coords.asr 4).maskLow 4)) with
      | none => default
      | some chunk => chunk.blocks (chunkIdx (block_coords.maskLow 4))
    else getBlockInSectors block_coords rest

/-- `VoxelWorld::get_block`. -/
def VoxelWorld.get_block {T : Type} [Inhabited T] (w : VoxelWorld T)
    (block_coords : IVec3) : T :=
  getBlockInSectors block_coords w.sectors

/-- The body of `VoxelWorld::set_block`: find the first sector at
`block_coords >> 8` (error if none), require the chunk slot to be occupied
(error if not), and write the block at the masked index. -/
def setBlockInSectors {T : Type} (block_coords : IVec3) (data : T) :
    List (VoxelSector T) → Except VoxelWorldError (List (VoxelSector T))
  | [] => .error (.chunkNotInitialized (block_coords.asr 4))
  | s :: rest =>
    if s.sector_coords = block_coords.asr 8 then
      match s.chunks (chunkIdx ((block_coords.asr 4).maskLow 4)) with
      | none => .error (.chunkNotInitialized (block_coords.asr 4))
      | some chunk =>
        .ok ({ s with
          chunks := Function.update s.chunks (chunkIdx ((block_coords.asr 4).maskLow 4))
            (some { chunk with
              blocks := Function.update chunk.blocks (chunkIdx (block_coords.maskLow 4))
                data }) } :: rest)
    else (setBlockInSectors block_coords data rest).map (s :: ·)

/-- `VoxelWorld::set_block`. -/
def VoxelWorld.set_block {T : Type} (w : VoxelWorld T) (block_coords : IVec3)
    (data : T) : Except VoxelWorldError (VoxelWorld T) :=
  (setBlockInSectors block_coords data w.sectors).map VoxelWorld.mk

/-- The body of `VoxelWorld::init_chunk`: find the sector at
`chunk_coords >> 4`, creating it at the end of the list when missing (the
source's `sectors.push`); an occupied slot in the `Loaded` state is a
`ChunkAlreadyExists` error, an occupied slot in the `Loading` state is
promoted to `Loaded`, an empty slot receives a fresh default-filled `Loaded`
chunk.  Returns the updated sector list together with the result, as the
source's `InitChunkResult` carries both. -/
def initChunkInSectors {T : Type} [Inhabited T] (chunk_coords : IVec3) :
    List (VoxelSector T) → List (VoxelSector T) × Except VoxelWorldError Unit
  | [] =>
    ([{ VoxelSector.new T (chunk_coords.asr 4) with
        chunks := Function.update (fun _ => none) (chunkIdx (chunk_coords.maskLow 4))
          (some (VoxelChunk.new T chunk_coords .loaded)) }],
     .ok ())
  | s :: rest =>
    if s.sector_coords = chunk_coords.asr 4 then
      match s.chunks (chunkIdx (chunk_coords.maskLow 4)) with
      | some chunk =>
        if chunk.load_state = .loaded then
          (s :: rest, .error (.chunkAlreadyExists chunk_coords))
        else
          ({ s with
            chunks := Function.update s.chunks (chunkIdx (chunk_coords.maskLow 4))
              (some { chunk with load_state := .loaded }) } :: rest,
           .ok ())
      | none =>
        ({ s with
          chunks := Function.update s.chunks (chunkIdx (chunk_coords.maskLow 4))
            (some (VoxelChunk.new T chunk_coords .loaded)) } :: rest,
         .ok ())
    else
      let r := initChunkInSectors chunk_coords rest
      (s :: r.1, r.2)

/-- `VoxelWorld::init_chunk`. -/
def VoxelWorld.init_chunk {T : Type} [Inhabited T] (w : VoxelWorld T)
    (chunk_coords : IVec3) : VoxelWorld T × Except VoxelWorldError Unit :=
  (VoxelWorld.mk (initChunkInSectors chunk_coords w.sectors).1,
   (initChunkInSectors chunk_coords w.sectors).2)

/-- The body of `VoxelWorld::unload_chunk`: find the sector at
`chunk_coords >> 4` (error if none), require the slot occupied (error if
not), and clear the slot.  The sector itself is left in the list even when
the cleared slot was its last occupied one. -/
def unloadChunkInSectors {T : Type} (chunk_coords : IVec3) :
    List (VoxelSector T) → Except VoxelWorldError (List (VoxelSector T))
  | [] => .error (.chunkDoesNotExist chunk_coords)
  | s :: rest =>
    if s.sector_coords = chunk_coords.asr 4 then
      match s.chunks (chunkIdx (chunk_coords.maskLow 4)) with
      | none => .error (.chunkDoesNotExist chunk_coords)
      | some _ =>
        .ok ({ s with
          chunks := Function.update s.chunks (chunkIdx (chunk_coords.maskLow 4)) none }
          :: rest)
    else (unloadChunkInSectors chunk_coords rest).map (s :: ·)

/-- `VoxelWorld::unload_chunk`.  On success the source's `UnloadChunkResult`
carries the unloaded coordinate. -/
def VoxelWorld.unload_chunk {T : Type} (w : VoxelWorld T) (chunk_coords : IVec3) :
    Except VoxelWorldError (VoxelWorld T) :=
  (unloadChunkInSectors chunk_coords w.sectors).map VoxelWorld.mk

/-- The body of `VoxelWorld::get_chunk_load_state`: `Unloaded` when the
sector at `chunk_coords >> 4` is absent or the chunk slot is empty, otherwise
the stored chunk's load state. -/
def getLoadStateInSectors {T : Type} (chunk_coords : IVec3) :
    List (VoxelSector T) → ChunkLoadState
  | [] => .unloaded
  | s :: rest =>
    if s.sector_coords = chunk_coords.asr 4 then
      match s.chunks (chunkIdx (chunk_coords.maskLow 4)) with
      | none => .unloaded
      | some chunk => chunk.load_state
    else getLoadStateInSectors chunk_coords rest

/-- `VoxelWorld::get_chunk_load_state`. -/
def VoxelWorld.get_chunk_load_state {T : Type} (w : VoxelWorld T)
    (chunk_coords : IVec3) : ChunkLoadState :=
  getLoadStateInSectors chunk_coords w.sectors

/-- A chunk is structurally absent from the sector list: the first sector at
`cc >> 4` (if any) has an empty slot at `cc`'s index.  Per the data model, a
chunk is "loaded" iff its sector exists and its slot is `Some`; this is the
negation. -/
def chunkAbsentIn {T : Type} (cc : IVec3) : List (VoxelSector T) → Bool
  | [] => true
  | s :: rest =>
    if s.sector_coords = cc.asr 4 then (s.chunks (chunkIdx (cc.maskLow 4))).isNone
    else chunkAbsentIn cc rest

/-- Whether the chunk at `cc` is not loaded in the world. -/
def VoxelWorld.chunk_absent {T : Type} (w : VoxelWorld T) (cc : IVec3) : Bool :=
  chunkAbsentIn cc w.sectors

/-- Arithmetic shift right by 4 twice is shift right by 8: block coordinates
route to the same sector whether computed as `(p >> 4) >> 4` (chunk of block,
then sector of chunk) or `p >> 8` directly. -/
theorem IVec3.asr_asr_4 (v : IVec3) : (v.asr 4).asr 4 = v.asr 8 := by
  unfold IVec3.asr
  simp only [IVec3.mk_x, IVec3.mk_y, IVec3.mk_z, IVec3.mk.injEq]
  norm_num
  omega

@[simp] theorem sector_coords_update {T : Type} (s : VoxelSector T)
    (f : ℕ → Option (VoxelChunk T)) :
    ({ s with chunks := f } : VoxelSector T).sector_coords = s.sector_coords := rfl

/-- After `init_chunk c`, the chunk at `c` reports the `Loaded` state: every
path of `init_chunk` (fresh sector, fresh slot, promotion from `Loading`, and
the `ChunkAlreadyExists` error path) leaves a chunk in the slot with
`load_state = Loaded`. -/
theorem getLoadState_init_self {T : Type} [Inhabited T] (c : IVec3)
    (l : List (VoxelSector T)) :
    getLoadStateInSectors c (initChunkInSectors c l).1 = .loaded := by
  induction l with
  | nil =>
    simp only [initChunkInSectors, getLoadStateInSectors, VoxelSector.new, VoxelChunk.new,
      Function.update_same, ite_true]
  | cons s rest ih =>
    by_cases h : s.sector_coords = c.asr 4
    · cases hslot : s.chunks (chunkIdx (c.maskLow 4)) with
      | some chunk =>
        by_cases hls : chunk.load_state = .loaded
        · simp only [initChunkInSectors]
          rw [if_pos h, hslot]
          dsimp only
          rw [if_pos hls]
          simp only [getLoadStateInSectors]
          rw [if_pos h, hslot]
          exact hls
        · simp only [initChunkInSectors]
          rw [if_pos h, hslot]
          dsimp only
          rw [if_neg hls]
          simp only [getLoadStateInSectors]
          rw [if_pos h]
          simp only [Function.update_same]
      | none =>
        simp only [initChunkInSectors]
        rw [if_pos h, hslot]
        dsimp only
        simp only [getLoadStateInSectors]
        rw [if_pos h]
        simp only [Function.update_same, VoxelChunk.new]
    · simp only [initChunkInSectors]
      rw [if_neg h]
      dsimp only
      simp only [getLoadStateInSectors]
      rw [if_neg h]
      exact ih

/-- `init_chunk` succeeds when the chunk is not currently in the `Loaded`
state. -/
theorem init_result_ok {T : Type} [Inhabited T] (c : IVec3) (l : List (VoxelSector T))
    (h : getLoadStateInSectors c l ≠ .loaded) :
    (initChunkInSectors c l).2 = .ok () := by
  induction l with
  | nil => rfl
  | cons s rest ih =>
    by_cases hc : s.sector_coords = c.asr 4
    · cases hslot : s.chunks (chunkIdx (c.maskLow 4)) with
      | some chunk =>
        have hls : chunk.load_state ≠ .loaded := by
          intro hl
          apply h
          simp only [getLoadStateInSectors]
          rw [if_pos hc, hslot]
          exact hl
        simp only [initChunkInSectors]
        rw [if_pos hc, hslot]
        dsimp only
        rw [if_neg hls]
      | none =>
        simp only [initChunkInSectors]
        rw [if_pos hc, hslot]
    · have h2 : getLoadStateInSectors c rest ≠ .loaded := by
        intro hl
        apply h
        simp only [getLoadStateInSectors]
        rw [if_neg hc]
        exact hl
      simp only [initChunkInSectors]
      rw [if_neg hc]
      exact ih h2

/-- `init_chunk` fails with `ChunkAlreadyExists` when the chunk is already in
the `Loaded` state. -/
theorem init_result_err {T : Type} [Inhabited T] (c : IVec3) (l : List (VoxelSector T))
    (h : getLoadStateInSectors c l = .loaded) :
    (initChunkInSectors c l).2 = .error (.chunkAlreadyExists c) := by
  induction l with
  | nil =>
    simp only [getLoadStateInSectors] at h
    cases h
  | cons s rest ih =>
    by_cases hc : s.sector_coords = c.asr 4
    · cases hslot : s.chunks (chunkIdx (c.maskLow 4)) with
      | some chunk =>
        have hls : chunk.load_state = .loaded := by
          simp only [getLoadStateInSectors] at h
          rw [if_pos hc, hslot] at h
          exact h
        simp only [initChunkInSectors]
        rw [if_pos hc, hslot]
        dsimp only
        rw [if_pos hls]
      | none =>
        exfalso
        simp only [getLoadStateInSectors] at h
        rw [if_pos hc, hslot] at h
        cases h
    · have h2 : getLoadStateInSectors c rest = .loaded := by
        simp only [getLoadStateInSectors] at h
        rw [if_neg hc] at h
        exact h
      simp only [initChunkInSectors]
      rw [if_neg hc]
      exact ih h2

/-- `set_block` on a block whose chunk slot is occupied succeeds, and a
subsequent `get_block` of the same coordinate reads back the written value:
both route through the same first matching sector and the same masked chunk
and block indices. -/
theorem set_get_roundtrip {T : Type} [Inhabited T] (p : IVec3) (v : T)
    (l : List (VoxelSector T))
    (h : getLoadStateInSectors (p.asr 4) l ≠ .unloaded) :
    ∃ l2, setBlockInSectors p v l = .ok l2 ∧ getBlockInSectors p l2 = v := by
  induction l with
  | nil =>
    exfalso
    exact h rfl
  | cons s rest ih =>
    by_cases hc : s.sector_coords = p.asr 8
    · have hc' : s.sector_coords = (p.asr 4).asr 4 := by rw [IVec3.asr_asr_4]; exact hc
      cases hslot : s.chunks (chunkIdx ((p.asr 4).maskLow 4)) with
      | some chunk =>
        refine ⟨{ s with
          chunks := Function.update s.chunks (chunkIdx ((p.asr 4).maskLow 4))
            (some { chunk with
              blocks := Function.update chunk.blocks (chunkIdx (p.maskLow 4)) v }) }
          :: rest, ?_, ?_⟩
        · simp only [setBlockInSectors]
          rw [if_pos hc, hslot]
        · simp only [getBlockInSectors]
          rw [if_pos hc]
          simp only [Function.update_same]
      | none =>
        exfalso
        apply h
        simp only [getLoadStateInSectors]
        rw [if_pos hc', hslot]
    · have hc' : ¬ s.sector_coords = (p.asr 4).asr 4 := by rw [IVec3.asr_asr_4]; exact hc
      have h2 : getLoadStateInSectors (p.asr 4) rest ≠ .unloaded := by
        intro hl
        apply h
        simp only [getLoadStateInSectors]
        rw [if_neg hc']
        exact hl
      obtain ⟨l2, hs, hg⟩ := ih h2
      refine ⟨s :: l2, ?_, ?_⟩
      · simp only [setBlockInSectors]
        rw [if_neg hc, hs]
        rfl
      · simp only [getBlockInSectors]
        rw [if_neg hc]
        exact hg

/-- `get_block` reads the default value when the chunk is structurally
absent (owning sector missing, or chunk slot empty). -/
theorem getBlock_default_of_absent {T : Type} [Inhabited T] (p : IVec3)
    (l : List (VoxelSector T)) (h : chunkAbsentIn (p.asr 4) l = true) :
    getBlockInSectors p l = default := by
  induction l with
  | nil => rfl
  | cons s rest ih =>
    by_cases hc : s.sector_coords = p.asr 8
    · have hc' : s.sector_coords = (p.asr 4).asr 4 := by rw [IVec3.asr_asr_4]; exact hc
      simp only [chunkAbsentIn] at h
      rw [if_pos hc'] at h
      simp only [getBlockInSectors]
      rw [if_pos hc]
      cases hslot : s.chunks (chunkIdx ((p.asr 4).maskLow 4)) with
      | none => rfl
      | some chunk =>
        exfalso
        rw [hslot] at h
        cases h
    · have hc' : ¬ s.sector_coords = (p.asr 4).asr 4 := by rw [IVec3.asr_asr_4]; exact hc
      simp only [chunkAbsentIn] at h
      rw [if_neg hc'] at h
      simp only [getBlockInSectors]
      rw [if_neg hc]
      exact ih h

/-- **C3.**  For every chunk coordinate `c` — negative components included,
all shifts being floor divisions — and every world state: after `init_chunk c`
the write `set_block p v` of any block `p` inside chunk `c` (that is,
`p >> 4 = c`) succeeds, and `get_block p` on the resulting world returns
`v`. -/
theorem c3_init_set_get_roundtrip {T : Type} [Inhabited T] (w : VoxelWorld T)
    (c p : IVec3) (v : T) (hp : p.asr 4 = c) :
    ∃ w2, ((w.init_chunk c).1).set_block p v = .ok w2 ∧ w2.get_block p = v := by
  have h1 := getLoadState_init_self c w.sectors
  rw [← hp] at h1
  have h2 : getLoadStateInSectors (p.asr 4) (initChunkInSectors (p.asr 4) w.sectors).1
      ≠ .unloaded := by
    rw [h1]
    intro hcontr
    cases hcontr
  rw [← hp]
  obtain ⟨l2, hs, hg⟩ := set_get_roundtrip p v _ h2
  refine ⟨⟨l2⟩, ?_, hg⟩
  simp only [VoxelWorld.set_block, VoxelWorld.init_chunk]
  rw [hs]
  rfl

/-- Witness for C3 at the negative-coordinate chunk `(-1,-1,-1)` (sector
`(-1,-1,-1)` under floor shifts): init, write 7 at block `(-1,-1,-1)`, read
back 7. -/
theorem c3_init_set_get_roundtrip_witness :
    ∃ w2, (((VoxelWorld.mk ([] : List (VoxelSector ℤ))).init_chunk
        ⟨-1, -1, -1⟩).1).set_block ⟨-1, -1, -1⟩ 7 = .ok w2
      ∧ w2.get_block ⟨-1, -1, -1⟩ = 7 :=
  c3_init_set_get_roundtrip (VoxelWorld.mk []) ⟨-1, -1, -1⟩ ⟨-1, -1, -1⟩ 7 (by decide)

/-- **C4.**  For every world state and every block coordinate whose owning
sector is missing or whose chunk slot is empty, `get_block` returns the block
type's default value; being total, it never returns an error. -/
theorem c4_get_block_default {T : Type} [Inhabited T] (w : VoxelWorld T) (p : IVec3)
    (h : w.chunk_absent (p.asr 4) = true) :
    w.get_block p = default :=
  getBlock_default_of_absent p w.sectors h

/-- Witness for C4: a world holding only chunk `(0,0,0)` read at block
`(16,0,0)` — same sector, absent chunk slot — yields the default value `0`. -/
theorem c4_get_block_default_witness :
    (((VoxelWorld.mk ([] : List (VoxelSector ℤ))).init_chunk ⟨0, 0, 0⟩).1).get_block
      ⟨16, 0, 0⟩ = default :=
  c4_get_block_default (((VoxelWorld.mk ([] : List (VoxelSector ℤ))).init_chunk
    ⟨0, 0, 0⟩).1) ⟨16, 0, 0⟩ (by decide)

/-- **C5.**  For every world state and chunk coordinate `c` not currently in
the `Loaded` state, `init_chunk c` succeeds, and calling `init_chunk c` again
on the resulting world (no intervening unload) fails with the
`ChunkAlreadyExists` error. -/
theorem c5_double_init {T : Type} [Inhabited T] (w : VoxelWorld T) (c : IVec3)
    (h : w.get_chunk_load_state c ≠ .loaded) :
    (w.init_chunk c).2 = .ok ()
    ∧ (((w.init_chunk c).1).init_chunk c).2
      = .error (.chunkAlreadyExists c) :=
  ⟨init_result_ok c w.sectors h,
   init_result_err c _ (getLoadState_init_self c w.sectors)⟩

/-- Witness for C5 at the chunk coordinate `(1,2,-3)` of the repository's own
`load_unload_chunks` test, starting from the empty world. -/
theorem c5_double_init_witness :
    ((VoxelWorld.mk ([] : List (VoxelSector ℤ))).init_chunk ⟨1, 2, -3⟩).2 = .ok ()
    ∧ ((((VoxelWorld.mk ([] : List (VoxelSector ℤ))).init_chunk ⟨1, 2, -3⟩).1).init_chunk
        ⟨1, 2, -3⟩).2 = .error (.chunkAlreadyExists ⟨1, 2, -3⟩) :=
  c5_double_init (VoxelWorld.mk []) ⟨1, 2, -3⟩ (by decide)

/-- **C6 (counterexample).**  `VoxelWorld::unload_chunk` does not evict empty
sectors: starting from the empty world, init chunk `(0,0,0)` and unload it
again; the unload succeeds, yet the sector collection still holds one sector,
and every one of that sector's 4096 chunk slots is empty — a sector with zero
loaded chunks remains after an unload, refuting the claimed invariant for the
voxel storage world. -/
theorem c6_empty_sector_counterexample :
    ∃ w2, (((VoxelWorld.mk ([] : List (VoxelSector ℤ))).init_chunk
        ⟨0, 0, 0⟩).1).unload_chunk ⟨0, 0, 0⟩ = .ok w2
      ∧ w2.sectors.length = 1
      ∧ ∀ s ∈ w2.sectors, ∀ i : ℕ, (s.chunks i).isNone = true := by
  refine ⟨VoxelWorld.mk [{ VoxelSector.new ℤ ((⟨0, 0, 0⟩ : IVec3).asr 4) with
    chunks := Function.update
      (Function.update (fun _ => none) (chunkIdx ((⟨0, 0, 0⟩ : IVec3).maskLow 4))
        (some (VoxelChunk.new ℤ ⟨0, 0, 0⟩ .loaded)))
      (chunkIdx ((⟨0, 0, 0⟩ : IVec3).maskLow 4)) none }], ?_, rfl, ?_⟩
  · rfl
  · intro s hs i
    simp only [List.mem_singleton] at hs
    subst hs
    by_cases hi : i = chunkIdx ((⟨0, 0, 0⟩ : IVec3).maskLow 4)
    · subst hi
      simp only [Function.update_same, Option.isNone_none]
    · simp only [Function.update_noteq hi, Option.isNone_none]

/-! ## The chunk entity pointer cache (src/query/sector.rs)

`ChunkEntityPointers` caches chunk entity ids in 32×32×32 sectors
(`CACHE_DEPTH = 5`), each carrying an `active_chunks` counter; unlike the
voxel storage world, `set_chunk_entity` here does evict a sector whose
counter returns to zero.  Entities are modelled as `ℕ`. -/

/-- `Sector` of src/query/sector.rs: a 32768-slot entity pointer array (its
index function), the sector coordinates, and the count of occupied slots. -/
structure CPSector where
  chunks : ℕ → Option ℕ
  sector_coords : IVec3
  active_chunks : ℕ

/-- `Sector::new`: an empty pointer sector. -/
def CPSector.new (sector_coords : IVec3) : CPSector := ⟨fun _ => none, sector_coords, 0⟩

/-- `Sector::region`: the 32×32×32 chunk-coordinate region of this sector
(`from_size(coords << CACHE_DEPTH, ONE << CACHE_DEPTH)`). -/
def CPSector.region (s : CPSector) : Region := ⟨s.sector_coords.shl 5, IVec3.splat 32⟩

/-- `Sector::set_chunk_entity`: write the pointer at the coordinate's index
(the `unwrap` of `point_to_index` modelled by `getD`; call sites pass
coordinates inside the sector's region) and adjust `active_chunks` by the
occupied-to-empty / empty-to-occupied transition. -/
def CPSector.set_chunk_entity (s : CPSector) (chunk_coords : IVec3)
    (entity : Option ℕ) : CPSector :=
  { chunks := Function.update s.chunks ((s.region.point_to_index chunk_coords).getD 0) entity
    sector_coords := s.sector_coords
    active_chunks :=
      match s.chunks ((s.region.point_to_index chunk_coords).getD 0), entity with
      | some _, none => s.active_chunks - 1
      | none, some _ => s.active_chunks + 1
      | _, _ => s.active_chunks }

/-- `Sector::is_empty`: no occupied slots. -/
def CPSector.is_empty (s : CPSector) : Bool := s.active_chunks == 0

/-- `ChunkEntityPointers`: the list of active pointer sectors. -/
structure ChunkEntityPointers where
  sectors : List CPSector

/-- The body of `ChunkEntityPointers::set_chunk_entity`: find the first
sector at `chunk_coords >> CACHE_DEPTH`, pushing a fresh one at the end of
the list when missing; mutate it; then, if the mutated sector is empty,
remove it from the list (the source finds its position again and removes
it — the first occurrence, which is the mutated one). -/
def setEntityInSectors (chunk_coords : IVec3) (entity : Option ℕ) :
    List CPSector → List CPSector
  | [] =>
    let s := (CPSector.new (chunk_coords.asr 5)).set_chunk_entity chunk_coords entity
    if s.is_empty = true then [] else [s]
  | s :: rest =>
    if s.sector_coords = chunk_coords.asr 5 then
      let s2 := s.set_chunk_entity chunk_coords entity
      if s2.is_empty = true then rest else s2 :: rest
    else s :: setEntityInSectors chunk_coords entity rest

/-- `ChunkEntityPointers::set_chunk_entity`. -/
def ChunkEntityPointers.set_chunk_entity (cp : ChunkEntityPointers)
    (chunk_coords : IVec3) (entity : Option ℕ) : ChunkEntityPointers :=
  ⟨setEntityInSectors chunk_coords entity cp.sectors⟩

/-- `set_chunk_entity` preserves "no empty sector in the collection": the
mutated (or freshly pushed) sector is removed exactly when its active count
returns to zero, and untouched sectors keep their counts. -/
theorem setEntity_no_empty (c : IVec3) (e : Option ℕ) (l : List CPSector)
    (h : ∀ s ∈ l, s.is_empty = false) :
    ∀ s ∈ setEntityInSectors c e l, s.is_empty = false := by
  induction l with
  | nil =>
    intro s hs
    simp only [setEntityInSectors] at hs
    by_cases he : ((CPSector.new (c.asr 5)).set_chunk_entity c e).is_empty = true
    · rw [if_pos he] at hs
      cases hs
    · rw [if_neg he] at hs
      simp only [List.mem_singleton] at hs
      subst hs
      exact Bool.not_eq_true _ ▸ eq_false_of_ne_true he
  | cons s0 rest ih =>
    intro s hs
    simp only [setEntityInSectors] at hs
    by_cases hc : s0.sector_coords = c.asr 5
    · rw [if_pos hc] at hs
      by_cases he : (s0.set_chunk_entity c e).is_empty = true
      · rw [if_pos he] at hs
        exact h s (List.mem_cons_of_mem s0 hs)
      · rw [if_neg he] at hs
        rcases List.mem_cons.mp hs with hs1 | hs2
        · subst hs1
          exact eq_false_of_ne_true he
        · exact h s (List.mem_cons_of_mem s0 hs2)
    · rw [if_neg hc] at hs
      rcases List.mem_cons.mp hs with hs1 | hs2
      · subst hs1
        exact h _ (List.mem_cons_self _ _)
      · exact ih (fun t ht => h t (List.mem_cons_of_mem s0 ht)) s hs2

/-- **C6 (amended).**  The voxel storage `VoxelWorld::unload_chunk` leaves an
emptied sector in its collection (see the counterexample); the no-empty-sector
invariant holds instead of the entity pointer cache `ChunkEntityPointers`:
if no sector of the cache is empty, then after any `set_chunk_entity` —
including the `None` write that unloads a sector's last chunk pointer — no
empty sector remains in the collection. -/
theorem c6_pointer_cache_evicts_empty_sectors (cp : ChunkEntityPointers)
    (c : IVec3) (e : Option ℕ)
    (hinv : ∀ s ∈ cp.sectors, s.is_empty = false) :
    ∀ s ∈ (cp.set_chunk_entity c e).sectors, s.is_empty = false :=
  setEntity_no_empty c e cp.sectors hinv

/-- Witness for the amended C6: a cache holding exactly one pointer (entity 5
at chunk `(0,0,0)`) satisfies the invariant; clearing that pointer removes
the sector, and the invariant still holds afterwards. -/
theorem c6_pointer_cache_evicts_empty_sectors_witness :
    (∀ s ∈ ((ChunkEntityPointers.mk []).set_chunk_entity ⟨0, 0, 0⟩
        (some 5)).sectors, s.is_empty = false)
    ∧ ∀ s ∈ (((ChunkEntityPointers.mk []).set_chunk_entity ⟨0, 0, 0⟩
        (some 5)).set_chunk_entity ⟨0, 0, 0⟩ none).sectors, s.is_empty = false :=
  ⟨by decide,
   c6_pointer_cache_evicts_empty_sectors _ ⟨0, 0, 0⟩ none (by decide)⟩

/-! ## The remesh trigger on chunk generation completion

Two revisions commit completed generations.  The current one
(crates/bones3_worldgen/src/queue.rs `finish_chunk_loading`) calls
`remesh_chunk_neighbors` (crates/bones3_remesh/src/query/commands.rs:30-61),
which marks the committed chunk and its six face-adjacent neighbors, skipping
chunks that are not loaded.  The older one (src/src/world_gen/queue.rs:151-158)
iterates all 27 offsets of `[-1,1]^3` and skips an offset only when the SUM of
its components exceeds 1 — `offset.x + offset.y + offset.z > 1`, without
absolute values — which keeps 23 offsets, including corners such as
`(-1,-1,-1)`. -/

/-- The offsets marked for remeshing by the older `finish_chunk_loading`:
every point of `Region::from_points(IVec3::NEG_ONE, IVec3::ONE)` whose
component sum is not greater than 1. -/
def finish_chunk_loading_remesh_offsets : List IVec3 :=
  (Region.from_points ⟨-1, -1, -1⟩ ⟨1, 1, 1⟩).points.filter
    (fun o => !(decide (o.x + o.y + o.z > 1)))

/-- `remesh_chunk_neighbors` (bones3_remesh): the chunks that receive the
`RemeshChunk` marker when a chunk at `chunk_coords` is committed — the chunk
itself and its six face-adjacent neighbors, in source order, keeping only
those that are loaded. -/
def remesh_chunk_neighbors (loaded : IVec3 → Bool) (chunk_coords : IVec3) :
    List IVec3 :=
  [chunk_coords,
   chunk_coords + ⟨1, 0, 0⟩, chunk_coords + ⟨0, 1, 0⟩, chunk_coords + ⟨0, 0, 1⟩,
   chunk_coords - ⟨1, 0, 0⟩, chunk_coords - ⟨0, 1, 0⟩,
   chunk_coords - ⟨0, 0, 1⟩].filter loaded

/-- **C9.**  The claimed fixed 7-chunk trigger set holds of
`remesh_chunk_neighbors` (with all neighbors loaded it marks exactly the
chunk and its six face neighbors), but the older `finish_chunk_loading`
commit path violates it: its offset filter `x + y + z > 1` lacks the absolute
values, so with all neighbors loaded it marks 23 of the 27 offsets around the
committed chunk — including the corner offset `(-1,-1,-1)`, which is not in
the 7-chunk neighborhood. -/
theorem c9_remesh_neighborhood :
    (⟨-1, -1, -1⟩ : IVec3) ∈ finish_chunk_loading_remesh_offsets
    ∧ finish_chunk_loading_remesh_offsets.length = 23
    ∧ remesh_chunk_neighbors (fun _ => true) ⟨0, 0, 0⟩
      = [⟨0, 0, 0⟩, ⟨1, 0, 0⟩, ⟨0, 1, 0⟩, ⟨0, 0, 1⟩,
         ⟨-1, 0, 0⟩, ⟨0, -1, 0⟩, ⟨0, 0, -1⟩]
    ∧ ¬ (⟨-1, -1, -1⟩ : IVec3) ∈ remesh_chunk_neighbors (fun _ => true) ⟨0, 0, 0⟩ := by
  decide

/-! ## Geometry lemmas for the bulk read path -/

/-- Recombining shift and mask: `(v >> 4) << 4 + (v & 15) = v`. -/
theorem IVec3.shl_asr_add_mask (v : IVec3) : (v.asr 4).shl 4 + v.maskLow 4 = v := by
  obtain ⟨vx, vy, vz⟩ := v
  unfold IVec3.asr IVec3.shl IVec3.maskLow
  simp only [IVec3.mk_x, IVec3.mk_y, IVec3.mk_z]
  show IVec3.mk (vx / 2 ^ 4 * 2 ^ 4 + vx % 2 ^ 4) (vy / 2 ^ 4 * 2 ^ 4 + vy % 2 ^ 4)
    (vz / 2 ^ 4 * 2 ^ 4 + vz % 2 ^ 4) = IVec3.mk vx vy vz
  simp only [IVec3.mk.injEq]
  norm_num
  omega

/-- The masked low coordinates lie in `Region::CHUNK`. -/
theorem maskLow_mem_CHUNK (v : IVec3) : Region.CHUNK.contains (v.maskLow 4) := by
  unfold Region.CHUNK Region.contains IVec3.maskLow
  simp only [IVec3.mk_x, IVec3.mk_y, IVec3.mk_z]
  norm_num
  omega

/-- A point lies in the shifted chunk region `CHUNK.shift (c << 4)` exactly
when its chunk coordinate (floor shift by 4) is `c`. -/
theorem contains_chunk_shift_iff {c q : IVec3} :
    (Region.CHUNK.shift (c.shl 4)).contains q ↔ q.asr 4 = c := by
  unfold Region.CHUNK Region.shift Region.contains IVec3.shl IVec3.asr
  obtain ⟨cx, cy, cz⟩ := c
  obtain ⟨qx, qy, qz⟩ := q
  simp only [IVec3.mk_x, IVec3.mk_y, IVec3.mk_z, IVec3.add_x, IVec3.add_y, IVec3.add_z,
    IVec3.mk.injEq]
  norm_num
  omega

/-- A point lies in the shifted sector region `SECTOR.shift (c << 8)` exactly
when its sector coordinate (floor shift by 8) is `c`. -/
theorem contains_sector_shift_iff {c q : IVec3} :
    (Region.SECTOR.shift (c.shl 8)).contains q ↔ q.asr 8 = c := by
  unfold Region.SECTOR Region.shift Region.contains IVec3.shl IVec3.asr
  obtain ⟨cx, cy, cz⟩ := c
  obtain ⟨qx, qy, qz⟩ := q
  simp only [IVec3.mk_x, IVec3.mk_y, IVec3.mk_z, IVec3.add_x, IVec3.add_y, IVec3.add_z,
    IVec3.mk.injEq]
  norm_num
  omega

/-- `from_points` membership: between the componentwise extremes of the two
corners. -/
theorem contains_from_points_iff {a b q : IVec3} :
    (Region.from_points a b).contains q
      ↔ (IVec3.levec (IVec3.minv a b) q ∧ IVec3.levec q (IVec3.maxv a b)) := by
  unfold Region.from_points Region.contains IVec3.levec IVec3.minv IVec3.maxv IVec3.splat
  obtain ⟨ax, ay, az⟩ := a
  obtain ⟨bx, b2, bz⟩ := b
  simp only [IVec3.mk_x, IVec3.mk_y, IVec3.mk_z, IVec3.add_x, IVec3.add_y, IVec3.add_z,
    IVec3.sub_x, IVec3.sub_y, IVec3.sub_z]
  omega

/-- Containment bounds: a contained point sits between the region's corners. -/
theorem levec_of_contains {r : Region} {p : IVec3} (h : r.contains p) :
    IVec3.levec r.minc p ∧ IVec3.levec p r.maxc := by
  unfold Region.contains at h
  unfold IVec3.levec Region.minc Region.maxc IVec3.splat
  simp only [IVec3.add_x, IVec3.add_y, IVec3.add_z, IVec3.sub_x, IVec3.sub_y, IVec3.sub_z,
    IVec3.mk_x, IVec3.mk_y, IVec3.mk_z]
  omega

/-- Floor shift by 4 is monotone componentwise. -/
theorem levec_asr4 {a b : IVec3} (h : IVec3.levec a b) :
    IVec3.levec (a.asr 4) (b.asr 4) := by
  unfold IVec3.levec at h ⊢
  unfold IVec3.asr
  simp only [IVec3.mk_x, IVec3.mk_y, IVec3.mk_z]
  norm_num
  obtain ⟨h1, h2, h3⟩ := h
  refine ⟨Int.ediv_le_ediv (by norm_num) h1, Int.ediv_le_ediv (by norm_num) h2,
    Int.ediv_le_ediv (by norm_num) h3⟩

/-- Two regions sharing a point intersect. -/
theorem intersects_of_common {a b : Region} {q : IVec3}
    (ha : a.contains q) (hb : b.contains q) : a.intersects b := by
  unfold Region.contains at ha hb
  unfold Region.intersects Region.minc Region.maxc IVec3.minv IVec3.maxv IVec3.splat
  simp only [IVec3.mk_x, IVec3.mk_y, IVec3.mk_z, IVec3.add_x, IVec3.add_y, IVec3.add_z,
    IVec3.sub_x, IVec3.sub_y, IVec3.sub_z]
  omega

/-- Two regions sharing a point have a `some` intersection, and it contains
exactly the points contained in both. -/
theorem intersection_spec {a b : Region} {q : IVec3}
    (ha : a.contains q) (hb : b.contains q) :
    ∃ r, Region.intersection a b = some r
      ∧ ∀ x : IVec3, (r.contains x ↔ (a.contains x ∧ b.contains x)) := by
  have hcond : ¬ ((IVec3.minv a.maxc b.maxc - IVec3.maxv a.minc b.minc + IVec3.splat 1).x ≤ 0
      ∨ (IVec3.minv a.maxc b.maxc - IVec3.maxv a.minc b.minc + IVec3.splat 1).y ≤ 0
      ∨ (IVec3.minv a.maxc b.maxc - IVec3.maxv a.minc b.minc + IVec3.splat 1).z ≤ 0) := by
    unfold Region.contains at ha hb
    unfold Region.minc Region.maxc IVec3.minv IVec3.maxv IVec3.splat
    simp only [IVec3.mk_x, IVec3.mk_y, IVec3.mk_z, IVec3.add_x, IVec3.add_y, IVec3.add_z,
      IVec3.sub_x, IVec3.sub_y, IVec3.sub_z]
    omega
  unfold Region.intersection
  rw [if_neg hcond]
  refine ⟨_, rfl, ?_⟩
  intro x
  unfold Region.contains at ha hb ⊢
  unfold Region.minc Region.maxc IVec3.minv IVec3.maxv IVec3.splat
  simp only [IVec3.mk_x, IVec3.mk_y, IVec3.mk_z, IVec3.add_x, IVec3.add_y, IVec3.add_z,
    IVec3.sub_x, IVec3.sub_y, IVec3.sub_z]
  omega

/-! ## The bulk read path: `VoxelWorld::get_slice`
(src/storage/world.rs:113-150) -/

/-- Modelled from the spec: `VoxelWorldSlice<T>` — the module list of
src/storage/mod.rs declares `mod world_slice` and re-exports
`VoxelWorldSlice`, but `world_slice.rs` itself is missing from the sources.
Per §4.2 of the spec, the region-bulk read copies "voxel-by-voxel into/from a
dense output buffer sized to the Region"; the buffer is addressed with the
region's `point_to_index` (the only position↔index bijection of the design),
reads degrade to the default value ("read paths never error"), and writes
outside the region are the `OutOfBounds` error, which the `get_slice` call
sites unwrap — the model leaves the slice unchanged there, and the call sites
only write points inside the region. -/
structure VoxelWorldSlice (T : Type) where
  region : Region
  blocks : ℕ → T

/-- Modelled from the spec: `VoxelWorldSlice::new` — a default-filled dense
buffer for the given region. -/
def VoxelWorldSlice.new (T : Type) [Inhabited T] (region : Region) : VoxelWorldSlice T :=
  ⟨region, fun _ => default⟩

/-- Modelled from the spec: `VoxelWorldSlice::get_block` — the buffered value
at a point of the region, the default value outside. -/
def VoxelWorldSlice.get_block {T : Type} [Inhabited T] (sl : VoxelWorldSlice T)
    (p : IVec3) : T :=
  match sl.region.point_to_index p with
  | some i => sl.blocks i
  | none => default

/-- Modelled from the spec: `VoxelWorldSlice::set_block` — write the buffered
value at a point of the region (out-of-region writes error in the source and
are unwrapped by `get_slice`, which never performs one; the model returns the
slice unchanged there). -/
def VoxelWorldSlice.set_block {T : Type} (sl : VoxelWorldSlice T) (p : IVec3)
    (v : T) : VoxelWorldSlice T :=
  match sl.region.point_to_index p with
  | some i => { sl with blocks := Function.update sl.blocks i v }
  | none => sl

/-- One iteration of the inner (per chunk coordinate) loop of
`VoxelWorld::get_slice`: when the chunk slot is occupied, copy the blocks in
the intersection of the chunk's block region with the requested region into
the slice, voxel by voxel. -/
def chunkStep {T : Type} [Inhabited T] (region : Region) (sector : VoxelSector T)
    (slice : VoxelWorldSlice T) (chunk_coords : IVec3) : VoxelWorldSlice T :=
  match sector.chunks (chunkIdx (chunk_coords.maskLow 4)) with
  | none => slice
  | some chunk =>
    match Region.intersection (Region.CHUNK.shift (chunk.chunk_coords.shl 4))
        region with
    | none => slice
    | some inter_blocks =>
      inter_blocks.points.foldl
        (fun slice block_coords =>
          slice.set_block block_coords
            (chunk.blocks (chunkIdx (block_coords.maskLow 4))))
        slice

/-- One iteration of the outer loop of `VoxelWorld::get_slice`: for a sector
that intersects the requested region, iterate the chunk coordinates in the
intersection of the sector's chunk region with `region_chunks`, running
`chunkStep` for each. -/
def sliceSectorPass {T : Type} [Inhabited T] (region region_chunks : Region)
    (slice : VoxelWorldSlice T) (sector : VoxelSector T) : VoxelWorldSlice T :=
  match Region.intersection (Region.CHUNK.shift (sector.sector_coords.shl 4))
      region_chunks with
  | none => slice
  | some inter_chunks =>
    inter_chunks.points.foldl (chunkStep region sector) slice

/-- `VoxelWorld::get_slice`: fold the per-sector pass over the sectors whose
block regions intersect the requested region, starting from a default-filled
slice. -/
def VoxelWorld.get_slice {T : Type} [Inhabited T] (w : VoxelWorld T)
    (region : Region) : VoxelWorldSlice T :=
  (w.sectors.filter
      (fun s => decide ((Region.SECTOR.shift (s.sector_coords.shl 8)).intersects region))).foldl
    (sliceSectorPass region (Region.from_points (region.minc.asr 4) (region.maxc.asr 4)))
    (VoxelWorldSlice.new T region)

/-- The well-formedness every API-built world enjoys (init stores each chunk
at the slot of its own masked coordinates, inside the sector of its own
shifted coordinates): each occupied slot of a sector holds a chunk whose
stored `chunk_coords` is the sector's base coordinate plus the slot's local
offset. -/
def VoxelSector.wfB {T : Type} (s : VoxelSector T) : Bool :=
  Region.CHUNK.points.all (fun cl =>
    match s.chunks (chunkIdx cl) with
    | none => true
    | some ch => decide (ch.chunk_coords = s.sector_coords.shl 4 + cl))

/-- A well-formed world: sector coordinates are pairwise distinct ("at most
one Sector per sector coordinate", §3 of the spec), and every sector is
well-formed. -/
def VoxelWorld.wf {T : Type} (w : VoxelWorld T) : Prop :=
  w.sectors.Pairwise (fun a b => a.sector_coords ≠ b.sector_coords)
  ∧ ∀ s ∈ w.sectors, s.wfB = true

theorem point_to_index_some_contains {r : Region} {p : IVec3} {i : ℕ}
    (h : r.point_to_index p = some i) : r.contains p := by
  unfold Region.point_to_index at h
  by_cases hc : r.contains p
  · exact hc
  · rw [if_neg hc] at h
    cases h

theorem sizes_pos_of_contains {r : Region} {p : IVec3} (h : r.contains p) :
    0 < r.size.x ∧ 0 < r.size.y ∧ 0 < r.size.z := by
  unfold Region.contains at h
  omega

@[simp] theorem region_set_block {T : Type} (sl : VoxelWorldSlice T) (q : IVec3) (v : T) :
    (sl.set_block q v).region = sl.region := by
  unfold VoxelWorldSlice.set_block
  split <;> rfl

theorem get_set_same {T : Type} [Inhabited T] {sl : VoxelWorldSlice T} {p : IVec3}
    (v : T) (hc : sl.region.contains p) :
    (sl.set_block p v).get_block p = v := by
  obtain ⟨i, hi, _⟩ := Region.point_to_index_lt_count (sizes_pos_of_contains hc) hc
  unfold VoxelWorldSlice.set_block VoxelWorldSlice.get_block
  rw [hi]
  dsimp only
  rw [hi]
  dsimp only
  rw [Function.update_same]

theorem get_set_ne {T : Type} [Inhabited T] {sl : VoxelWorldSlice T} {p q : IVec3}
    (v : T) (hne : q ≠ p) :
    (sl.set_block q v).get_block p = sl.get_block p := by
  unfold VoxelWorldSlice.set_block VoxelWorldSlice.get_block
  cases hq : sl.region.point_to_index q with
  | none => rfl
  | some i =>
    dsimp only
    cases hp : sl.region.point_to_index p with
    | none => rfl
    | some j =>
      dsimp only
      have hij : j ≠ i := by
        intro hji
        apply hne
        apply Region.point_to_index_inj
          (sizes_pos_of_contains (point_to_index_some_contains hp))
          (point_to_index_some_contains hq) (point_to_index_some_contains hp)
        rw [hq, hp, hji]
      rw [Function.update_noteq hij]

theorem foldl_set_get_of_ne {T : Type} [Inhabited T] (f : IVec3 → T) {p : IVec3}
    (ps : List IVec3) (sl : VoxelWorldSlice T) (hnp : p ∉ ps) :
    (ps.foldl (fun acc q => acc.set_block q (f q)) sl).get_block p = sl.get_block p := by
  induction ps generalizing sl with
  | nil => rfl
  | cons q rest ih =>
    have hq : q ≠ p := fun h => hnp (h ▸ List.mem_cons_self q rest)
    have hrest : p ∉ rest := fun h => hnp (List.mem_cons_of_mem q h)
    simp only [List.foldl_cons]
    rw [ih _ hrest, get_set_ne _ hq]

theorem foldl_set_get_of_mem {T : Type} [Inhabited T] (f : IVec3 → T) {p : IVec3}
    (ps : List IVec3) (sl : VoxelWorldSlice T) (hmem : p ∈ ps)
    (hc : sl.region.contains p) :
    (ps.foldl (fun acc q => acc.set_block q (f q)) sl).get_block p = f p := by
  induction ps generalizing sl with
  | nil => cases hmem
  | cons q rest ih =>
    simp only [List.foldl_cons]
    by_cases hrest : p ∈ rest
    · exact ih _ hrest (by rw [region_set_block]; exact hc)
    · have hpq : p = q := by
        rcases List.mem_cons.mp hmem with h | h
        · exact h
        · exact absurd h hrest
      subst hpq
      rw [foldl_set_get_of_ne f rest _ hrest, get_set_same _ hc]

theorem region_foldl_set {T : Type} (f : IVec3 → T) (ps : List IVec3)
    (sl : VoxelWorldSlice T) :
    (ps.foldl (fun acc q => acc.set_block q (f q)) sl).region = sl.region := by
  induction ps generalizing sl with
  | nil => rfl
  | cons q rest ih =>
    simp only [List.foldl_cons]
    rw [ih, region_set_block]

theorem region_chunkStep {T : Type} [Inhabited T] (region : Region)
    (s : VoxelSector T) (sl : VoxelWorldSlice T) (cc : IVec3) :
    (chunkStep region s sl cc).region = sl.region := by
  unfold chunkStep
  split
  · rfl
  · split
    · rfl
    · rw [region_foldl_set]

theorem region_chunk_fold {T : Type} [Inhabited T] (region : Region)
    (s : VoxelSector T) (ccs : List IVec3) (sl : VoxelWorldSlice T) :
    (ccs.foldl (chunkStep region s) sl).region = sl.region := by
  induction ccs generalizing sl with
  | nil => rfl
  | cons cc rest ih =>
    simp only [List.foldl_cons]
    rw [ih, region_chunkStep]

theorem region_sliceSectorPass {T : Type} [Inhabited T] (region rc : Region)
    (sl : VoxelWorldSlice T) (s : VoxelSector T) :
    (sliceSectorPass region rc sl s).region = sl.region := by
  unfold sliceSectorPass
  split
  · rfl
  · rw [region_chunk_fold]

/-- Extracting the per-slot fact from the decidable sector well-formedness. -/
theorem wfB_spec {T : Type} {s : VoxelSector T} (hwf : s.wfB = true) {cl : IVec3}
    (hcl : Region.CHUNK.contains cl) {ch : VoxelChunk T}
    (hch : s.chunks (chunkIdx cl) = some ch) :
    ch.chunk_coords = s.sector_coords.shl 4 + cl := by
  unfold VoxelSector.wfB at hwf
  rw [List.all_eq_true] at hwf
  have := hwf cl (Region.mem_points.mpr hcl)
  rw [hch] at this
  exact of_decide_eq_true this

/-- What a `some` intersection contains: exactly the points contained in both
arguments. -/
theorem intersection_some_contains {a b r : Region}
    (h : Region.intersection a b = some r) (x : IVec3) :
    r.contains x ↔ (a.contains x ∧ b.contains x) := by
  unfold Region.intersection at h
  by_cases hcond : ((IVec3.minv a.maxc b.maxc - IVec3.maxv a.minc b.minc + IVec3.splat 1).x ≤ 0
      ∨ (IVec3.minv a.maxc b.maxc - IVec3.maxv a.minc b.minc + IVec3.splat 1).y ≤ 0
      ∨ (IVec3.minv a.maxc b.maxc - IVec3.maxv a.minc b.minc + IVec3.splat 1).z ≤ 0)
  · rw [if_pos hcond] at h
    cases h
  · rw [if_neg hcond] at h
    have hr := Option.some.inj h
    subst hr
    unfold Region.contains
    unfold Region.minc Region.maxc IVec3.minv IVec3.maxv IVec3.splat
    simp only [IVec3.mk_x, IVec3.mk_y, IVec3.mk_z, IVec3.add_x, IVec3.add_y, IVec3.add_z,
      IVec3.sub_x, IVec3.sub_y, IVec3.sub_z]
    omega

/-- Effect of one `chunkStep` at a chunk coordinate other than `p`'s chunk:
the step writes only blocks of its own chunk (its stored coordinates, which
well-formedness pins to the iterated coordinate), so the value at `p` is
untouched. -/
theorem chunkStep_get_ne {T : Type} [Inhabited T] {region : Region}
    {s : VoxelSector T} (hwf : s.wfB = true) {p : IVec3}
    {sl : VoxelWorldSlice T} {cc : IVec3} (hcc : cc.asr 4 = s.sector_coords)
    (hne : cc ≠ p.asr 4) :
    (chunkStep region s sl cc).get_block p = sl.get_block p := by
  unfold chunkStep
  cases hslot : s.chunks (chunkIdx (cc.maskLow 4)) with
  | none => rfl
  | some ch =>
    dsimp only
    have hchc : ch.chunk_coords = cc := by
      have := wfB_spec hwf (maskLow_mem_CHUNK cc) hslot
      rw [this, ← hcc, IVec3.shl_asr_add_mask]
    cases hinter : Region.intersection (Region.CHUNK.shift (ch.chunk_coords.shl 4))
        region with
    | none => rfl
    | some ib =>
      dsimp only
      apply foldl_set_get_of_ne
      intro hmem
      have hcont := (intersection_some_contains hinter p).mp (Region.mem_points.mp hmem)
      have : p.asr 4 = ch.chunk_coords := contains_chunk_shift_iff.mp hcont.1
      rw [hchc] at this
      exact hne this.symm

/-- Effect of one `chunkStep` at `p`'s own chunk coordinate: when the slot is
occupied, the step copies the chunk's block at `p`'s masked index into the
slice. -/
theorem chunkStep_get_eq {T : Type} [Inhabited T] {region : Region}
    {s : VoxelSector T} (hwf : s.wfB = true) {p : IVec3} (hp : region.contains p)
    {sl : VoxelWorldSlice T} (hsl : sl.region = region)
    (hcc : (p.asr 4).asr 4 = s.sector_coords) :
    (chunkStep region s sl (p.asr 4)).get_block p
    = match s.chunks (chunkIdx ((p.asr 4).maskLow 4)) with
      | some ch => ch.blocks (chunkIdx (p.maskLow 4))
      | none => sl.get_block p := by
  unfold chunkStep
  cases hslot : s.chunks (chunkIdx ((p.asr 4).maskLow 4)) with
  | none => rfl
  | some ch =>
    dsimp only
    have hchc : ch.chunk_coords = p.asr 4 := by
      have := wfB_spec hwf (maskLow_mem_CHUNK (p.asr 4)) hslot
      rw [this, ← hcc, IVec3.shl_asr_add_mask]
    have hmem1 : (Region.CHUNK.shift (ch.chunk_coords.shl 4)).contains p := by
      rw [hchc]
      exact contains_chunk_shift_iff.mpr rfl
    obtain ⟨ib, hib, hib_mem⟩ := intersection_spec hmem1 hp
    rw [hib]
    dsimp only
    apply foldl_set_get_of_mem
    · exact Region.mem_points.mpr ((hib_mem p).mpr ⟨hmem1, hp⟩)
    · rw [hsl]
      exact hp

/-- The inner fold of `get_slice` over a list of chunk coordinates of one
sector: the value read back at `p` is the chunk's block when `p`'s chunk
coordinate is among the iterated ones and its slot is occupied, and the
incoming slice's value otherwise. -/
theorem chunk_fold_get {T : Type} [Inhabited T] {region : Region}
    {s : VoxelSector T} (hwf : s.wfB = true) {p : IVec3} (hp : region.contains p)
    (ccs : List IVec3) (hcc : ∀ cc ∈ ccs, cc.asr 4 = s.sector_coords)
    (sl : VoxelWorldSlice T) (hsl : sl.region = region) :
    ((ccs.foldl (chunkStep region s) sl).get_block p)
    = if p.asr 4 ∈ ccs then
        match s.chunks (chunkIdx ((p.asr 4).maskLow 4)) with
        | some ch => ch.blocks (chunkIdx (p.maskLow 4))
        | none => sl.get_block p
      else sl.get_block p := by
  induction ccs generalizing sl with
  | nil => simp
  | cons cc rest ih =>
    have hcc0 : cc.asr 4 = s.sector_coords := hcc cc (List.mem_cons_self cc rest)
    have hccrest : ∀ c ∈ rest, c.asr 4 = s.sector_coords :=
      fun c h => hcc c (List.mem_cons_of_mem cc h)
    have hsl' : (chunkStep region s sl cc).region = region := by
      rw [region_chunkStep]; exact hsl
    simp only [List.foldl_cons]
    rw [ih hccrest _ hsl']
    by_cases hmem : p.asr 4 ∈ rest
    · rw [if_pos hmem, if_pos (List.mem_cons_of_mem cc hmem)]
      cases hslot : s.chunks (chunkIdx ((p.asr 4).maskLow 4)) with
      | some ch => rfl
      | none =>
        dsimp only
        by_cases hccp : cc = p.asr 4
        · subst hccp
          rw [chunkStep_get_eq hwf hp hsl hcc0, hslot]
        · rw [chunkStep_get_ne hwf hcc0 hccp]
    · rw [if_neg hmem]
      by_cases hccp : cc = p.asr 4
      · subst hccp
        rw [if_pos (List.mem_cons_self _ _)]
        exact chunkStep_get_eq hwf hp hsl hcc0
      · have : ¬ p.asr 4 ∈ cc :: rest := by
          intro hin
          rcases List.mem_cons.mp hin with h | h
          · exact hccp h.symm
          · exact hmem h
        rw [if_neg this]
        exact chunkStep_get_ne hwf hcc0 hccp

/-- Every point of `from_points a b` with `a ≤ q ≤ b` componentwise is
contained. -/
theorem contains_from_points_of_between {a b q : IVec3}
    (h1 : IVec3.levec a q) (h2 : IVec3.levec q b) :
    (Region.from_points a b).contains q := by
  unfold IVec3.levec at h1 h2
  unfold Region.from_points Region.contains IVec3.minv IVec3.maxv IVec3.splat
  simp only [IVec3.mk_x, IVec3.mk_y, IVec3.mk_z, IVec3.add_x, IVec3.add_y, IVec3.add_z,
    IVec3.sub_x, IVec3.sub_y, IVec3.sub_z]
  omega

/-- The effect of one whole sector pass on the value read back at `p`: the
sector's chunk holding `p` (when this is the right sector and the slot is
occupied), the incoming slice's value otherwise. -/
theorem sliceSectorPass_get {T : Type} [Inhabited T] {region : Region}
    {s : VoxelSector T} (hwf : s.wfB = true) {p : IVec3} (hp : region.contains p)
    {sl : VoxelWorldSlice T} (hsl : sl.region = region) :
    (sliceSectorPass region (Region.from_points (region.minc.asr 4) (region.maxc.asr 4))
        sl s).get_block p
    = if s.sector_coords = p.asr 8 then
        match s.chunks (chunkIdx ((p.asr 4).maskLow 4)) with
        | some ch => ch.blocks (chunkIdx (p.maskLow 4))
        | none => sl.get_block p
      else sl.get_block p := by
  unfold sliceSectorPass
  by_cases hsec : s.sector_coords = p.asr 8
  · have hcc_chunkreg : (Region.CHUNK.shift (s.sector_coords.shl 4)).contains (p.asr 4) := by
      apply contains_chunk_shift_iff.mpr
      rw [IVec3.asr_asr_4]
      exact hsec.symm
    have hcc_rc : (Region.from_points (region.minc.asr 4) (region.maxc.asr 4)).contains
        (p.asr 4) := by
      obtain ⟨h1, h2⟩ := levec_of_contains hp
      exact contains_from_points_of_between (levec_asr4 h1) (levec_asr4 h2)
    obtain ⟨ic, hic, hic_mem⟩ := intersection_spec hcc_chunkreg hcc_rc
    rw [hic]
    dsimp only
    have hcc : ∀ cc ∈ ic.points, cc.asr 4 = s.sector_coords := by
      intro cc hin
      exact contains_chunk_shift_iff.mp ((hic_mem cc).mp (Region.mem_points.mp hin)).1
    rw [chunk_fold_get hwf hp ic.points hcc sl hsl]
    rw [if_pos (Region.mem_points.mpr ((hic_mem (p.asr 4)).mpr ⟨hcc_chunkreg, hcc_rc⟩)),
      if_pos hsec]
  · cases hic : Region.intersection (Region.CHUNK.shift (s.sector_coords.shl 4))
        (Region.from_points (region.minc.asr 4) (region.maxc.asr 4)) with
    | none =>
      dsimp only
      rw [if_neg hsec]
    | some ic =>
      dsimp only
      have hcc : ∀ cc ∈ ic.points, cc.asr 4 = s.sector_coords := by
        intro cc hin
        exact contains_chunk_shift_iff.mp
          ((intersection_some_contains hic cc).mp (Region.mem_points.mp hin)).1
      rw [chunk_fold_get hwf hp ic.points hcc sl hsl]
      have hnot : ¬ p.asr 4 ∈ ic.points := by
        intro hin
        apply hsec
        rw [← hcc (p.asr 4) hin, IVec3.asr_asr_4]
      rw [if_neg hnot, if_neg hsec]

/-- The value `get_block` would pick out of the first sector matching `p`'s
sector coordinate, when that sector's chunk slot for `p` is occupied. -/
def chunkBlocksAt {T : Type} (p : IVec3) : List (VoxelSector T) → Option T
  | [] => none
  | s :: rest =>
    if s.sector_coords = p.asr 8 then
      match s.chunks (chunkIdx ((p.asr 4).maskLow 4)) with
      | none => none
      | some ch => some (ch.blocks (chunkIdx (p.maskLow 4)))
    else chunkBlocksAt p rest

theorem getBlockInSectors_eq_chunkBlocksAt {T : Type} [Inhabited T] (p : IVec3)
    (l : List (VoxelSector T)) :
    getBlockInSectors p l = (chunkBlocksAt p l).getD default := by
  induction l with
  | nil => rfl
  | cons s rest ih =>
    simp only [getBlockInSectors, chunkBlocksAt]
    by_cases hc : s.sector_coords = p.asr 8
    · rw [if_pos hc, if_pos hc]
      cases hslot : s.chunks (chunkIdx ((p.asr 4).maskLow 4)) <;> rfl
    · rw [if_neg hc, if_neg hc]
      exact ih

theorem chunkBlocksAt_none_of_no_match {T : Type} {p : IVec3}
    {l : List (VoxelSector T)} (h : ∀ s ∈ l, s.sector_coords ≠ p.asr 8) :
    chunkBlocksAt p l = none := by
  induction l with
  | nil => rfl
  | cons s rest ih =>
    simp only [chunkBlocksAt]
    rw [if_neg (h s (List.mem_cons_self s rest))]
    exact ih fun t ht => h t (List.mem_cons_of_mem s ht)

/-- The outer fold of `get_slice` over the (filtered) sector list: the value
read back at `p` is the block `get_block` finds in the first sector matching
`p`'s coordinates, falling back to the incoming slice's value. -/
theorem sectors_fold_get {T : Type} [Inhabited T] {region : Region} {p : IVec3}
    (hp : region.contains p) (l : List (VoxelSector T))
    (hpair : l.Pairwise (fun a b => a.sector_coords ≠ b.sector_coords))
    (hwf : ∀ s ∈ l, s.wfB = true)
    (sl : VoxelWorldSlice T) (hsl : sl.region = region) :
    ((l.filter
        (fun s => decide ((Region.SECTOR.shift (s.sector_coords.shl 8)).intersects region))).foldl
      (sliceSectorPass region (Region.from_points (region.minc.asr 4) (region.maxc.asr 4)))
      sl).get_block p
    = (chunkBlocksAt p l).getD (sl.get_block p) := by
  induction l generalizing sl with
  | nil => rfl
  | cons s rest ih =>
    rw [List.pairwise_cons] at hpair
    obtain ⟨hhead, hrest⟩ := hpair
    have hwfs : s.wfB = true := hwf s (List.mem_cons_self s rest)
    have hwfrest : ∀ t ∈ rest, t.wfB = true := fun t ht => hwf t (List.mem_cons_of_mem s ht)
    simp only [chunkBlocksAt, List.filter_cons]
    by_cases hpred : (Region.SECTOR.shift (s.sector_coords.shl 8)).intersects region
    · rw [if_pos (by exact decide_eq_true hpred)]
      simp only [List.foldl_cons]
      have hsl' : (sliceSectorPass region
          (Region.from_points (region.minc.asr 4) (region.maxc.asr 4)) sl s).region
          = region := by rw [region_sliceSectorPass]; exact hsl
      rw [ih hrest hwfrest _ hsl']
      rw [sliceSectorPass_get hwfs hp hsl]
      by_cases hsec : s.sector_coords = p.asr 8
      · rw [if_pos hsec, if_pos hsec]
        have hnone : chunkBlocksAt p rest = none :=
          chunkBlocksAt_none_of_no_match (fun t ht hco => (hhead t ht) (hco ▸ hsec))
        rw [hnone]
        cases hslot : s.chunks (chunkIdx ((p.asr 4).maskLow 4)) <;> rfl
      · rw [if_neg hsec, if_neg hsec]
    · rw [if_neg (by simpa using hpred)]
      rw [ih hrest hwfrest sl hsl]
      have hsec : s.sector_coords ≠ p.asr 8 := by
        intro hco
        apply hpred
        exact intersects_of_common (contains_sector_shift_iff.mpr hco.symm) hp
      rw [if_neg hsec]

/-- A fresh slice reads the default value everywhere. -/
theorem new_get_block {T : Type} [Inhabited T] (region : Region) (p : IVec3) :
    (VoxelWorldSlice.new T region).get_block p = default := by
  unfold VoxelWorldSlice.new VoxelWorldSlice.get_block
  cases region.point_to_index p <;> rfl

/-- **C7.**  For every well-formed world (pairwise-distinct sector
coordinates and each chunk stored at the slot of its own coordinates — the
invariants every API-built world enjoys), every region, and every point `p`
the region contains, the optimized bulk read `get_slice` — which visits only
the sectors and chunks intersecting the region — produces a slice whose value
at `p` equals the single-voxel read `get_block p` on the same world. -/
theorem c7_get_slice_agrees_with_get_block {T : Type} [Inhabited T]
    (w : VoxelWorld T) (region : Region) (p : IVec3)
    (hwf : w.wf) (hp : region.contains p) :
    (w.get_slice region).get_block p = w.get_block p := by
  unfold VoxelWorld.get_slice VoxelWorld.get_block
  rw [sectors_fold_get hp w.sectors hwf.1 hwf.2 _ rfl, new_get_block,
    getBlockInSectors_eq_chunkBlocksAt]

/-- Establishing sector well-formedness slot by slot. -/
theorem wfB_of_pointwise {T : Type} {s : VoxelSector T}
    (h : ∀ cl ∈ Region.CHUNK.points, ∀ ch, s.chunks (chunkIdx cl) = some ch →
      ch.chunk_coords = s.sector_coords.shl 4 + cl) :
    s.wfB = true := by
  unfold VoxelSector.wfB
  rw [List.all_eq_true]
  intro cl hcl
  cases hc : s.chunks (chunkIdx cl) with
  | none => rfl
  | some ch => exact decide_eq_true (h cl hcl ch hc)

/-- For a contained point, `point_to_index` is `some` of `chunkIdx`. -/
theorem point_to_index_eq_chunkIdx {a : IVec3} (ha : Region.CHUNK.contains a) :
    Region.CHUNK.point_to_index a = some (chunkIdx a) := by
  unfold chunkIdx
  rw [Region.point_to_index_of_contains ha]
  rfl

/-- `chunkIdx` is injective on the points of `Region::CHUNK`. -/
theorem chunkIdx_inj_on_CHUNK {a b : IVec3} (ha : Region.CHUNK.contains a)
    (hb : Region.CHUNK.contains b) (h : chunkIdx a = chunkIdx b) : a = b := by
  apply Region.point_to_index_inj (r := Region.CHUNK) (by norm_num [Region.CHUNK]) ha hb
  rw [point_to_index_eq_chunkIdx ha, point_to_index_eq_chunkIdx hb, h]

/-- The concrete world of the C7 witness: chunk `(0,0,0)` initialized and the
block `(1,2,3)` set to 42. -/
def c7WitnessWorld : VoxelWorld ℤ :=
  match ((VoxelWorld.mk []).init_chunk ⟨0, 0, 0⟩).1.set_block ⟨1, 2, 3⟩ 42 with
  | .ok w => w
  | .error _ => VoxelWorld.mk []

/-- The single sector the C7 witness world computes to. -/
def c7WitnessSector : VoxelSector ℤ :=
  { chunks :=
      Function.update
        (Function.update (fun _ => none) (chunkIdx ((⟨0, 0, 0⟩ : IVec3).maskLow 4))
          (some (VoxelChunk.new ℤ ⟨0, 0, 0⟩ .loaded)))
        (chunkIdx (((⟨1, 2, 3⟩ : IVec3).asr 4).maskLow 4))
        (some { VoxelChunk.new ℤ ⟨0, 0, 0⟩ .loaded with
          blocks := Function.update (VoxelChunk.new ℤ ⟨0, 0, 0⟩ .loaded).blocks
            (chunkIdx ((⟨1, 2, 3⟩ : IVec3).maskLow 4)) 42 })
    sector_coords := (⟨0, 0, 0⟩ : IVec3).asr 4 }

theorem c7WitnessWorld_eq : c7WitnessWorld = VoxelWorld.mk [c7WitnessSector] := rfl

theorem c7WitnessWorld_wf : c7WitnessWorld.wf := by
  rw [c7WitnessWorld_eq]
  constructor
  · exact List.pairwise_singleton _ _
  · intro s hs
    rw [List.mem_singleton] at hs
    subst hs
    apply wfB_of_pointwise
    intro cl hcl ch hch
    rw [Region.mem_points] at hcl
    have hk0 : chunkIdx ((⟨0, 0, 0⟩ : IVec3).maskLow 4) = 0 := by decide
    have hk1 : chunkIdx (((⟨1, 2, 3⟩ : IVec3).asr 4).maskLow 4) = 0 := by decide
    show ch.chunk_coords = _
    by_cases hk : chunkIdx cl = 0
    · have hcl0 : cl = ⟨0, 0, 0⟩ := by
        apply chunkIdx_inj_on_CHUNK hcl (by decide)
        rw [hk]
        decide
      subst hcl0
      have hch' : (c7WitnessSector.chunks (chunkIdx (⟨0, 0, 0⟩ : IVec3))) = some ch := hch
      unfold c7WitnessSector at hch'
      dsimp only at hch'
      rw [show chunkIdx (⟨0, 0, 0⟩ : IVec3) = 0 from by decide, hk1,
        Function.update_same] at hch'
      have := Option.some.inj hch'
      rw [← this]
      decide
    · exfalso
      unfold c7WitnessSector at hch
      dsimp only at hch
      rw [hk1, hk0, Function.update_noteq hk, Function.update_noteq hk] at hch
      cases hch

/-- Witness for C7: on the concrete world holding 42 at block `(1,2,3)` of
chunk `(0,0,0)`, the bulk read of the region spanning `(-2,-2,-2)..(4,4,4)`
(which also covers unloaded space) agrees at `(1,2,3)` with the single-voxel
read, whose value is 42. -/
theorem c7_get_slice_agrees_with_get_block_witness :
    c7WitnessWorld.get_block ⟨1, 2, 3⟩ = 42
    ∧ (c7WitnessWorld.get_slice (Region.from_points ⟨-2, -2, -2⟩ ⟨4, 4, 4⟩)).get_block
        ⟨1, 2, 3⟩ = c7WitnessWorld.get_block ⟨1, 2, 3⟩ :=
  ⟨by decide,
   c7_get_slice_agrees_with_get_block c7WitnessWorld
     (Region.from_points ⟨-2, -2, -2⟩ ⟨4, 4, 4⟩) ⟨1, 2, 3⟩
     c7WitnessWorld_wf (by decide)⟩

end Bones3
